import Mathlib

/-!
# Simulation-based combinational equivalence checking

A shallow embedding of `include/mockturtle/algorithms/simulation_cec.hpp`:
the statistics record, the partition-size selector and the round loop of
`simulation_cec_impl::run`, and the entry point `simulation_cec`.

The network type, the truth-table type, the simulator and the miter
construction are collaborators whose code lives outside that file; they are
modelled from the specification and marked as such.
-/

namespace mockturtle

/-! ## Logic networks -/

/-- Modelled from the spec: a signal of the logic network (the network type is a
template parameter of the checker): "signals reference a node plus a polarity
bit". -/
structure signal where
  index : Nat
  complement : Bool
deriving DecidableEq

/-- Modelled from the spec: the local boolean function of a gate ("each node has
a local boolean function"); two-input AND and XOR, as in an XOR-AND graph. -/
inductive gate_kind where
  | and_gate
  | xor_gate
deriving DecidableEq

/-- Modelled from the spec: a gate with its "ordered input signals". -/
structure gate where
  kind : gate_kind
  fanin0 : signal
  fanin1 : signal
deriving DecidableEq

/-- Modelled from the spec: the logic network, "nodes are visited in a fixed
topological order". Node `0` is the constant false, nodes `1 .. num_pis` are the
primary inputs in their enumeration order, and gate `j` of `gates` is node
`num_pis + 1 + j`. `pos` lists the primary-output signals. -/
structure network where
  num_pis : Nat
  gates : List gate
  pos : List signal
deriving DecidableEq

/-- Modelled from the spec: the number of nodes, `Ntk::size()` ("node count"). -/
def network.size (ntk : network) : Nat :=
  1 + ntk.num_pis + ntk.gates.length

/-- Modelled from the spec: the number of primary outputs, `Ntk::num_pos()`. -/
def network.num_pos (ntk : network) : Nat :=
  ntk.pos.length

/-- Modelled from the spec: the topological order of the nodes; gates starting at
node index `idx` only read nodes of smaller index. -/
def gates_ordered : List gate → Nat → Bool
  | [], _ => true
  | g :: gs, idx =>
    decide (g.fanin0.index < idx) && (decide (g.fanin1.index < idx) && gates_ordered gs (idx + 1))

/-- Modelled from the spec: the invariant of a logic network ("directed acyclic
graph", "fixed topological order"); the node order is topological and every
output refers to an existing node. -/
def network.well_formed (ntk : network) : Bool :=
  gates_ordered ntk.gates (ntk.num_pis + 1) && ntk.pos.all (fun f => decide (f.index < ntk.size))

/-! ## Truth tables (`kitty::dynamic_truth_table`) -/

/-- Modelled from the spec: the simulation value, "a fixed-width bit-vector of
length 2^k". `table` holds the `2 ^ num_vars` bits, bit `p` being the value at
position `p`. -/
structure dynamic_truth_table where
  num_vars : Nat
  table : Nat
deriving DecidableEq, Inhabited

/-- Modelled from the spec: the number of 64-bit words of a truth table over
`num_vars` variables ("fixed-width words"). -/
def num_words (num_vars : Nat) : Nat :=
  if num_vars ≤ 6 then 1 else 2 ^ (num_vars - 6)

/-- Modelled from the spec: the words of the table, the member `_bits` read by the
output check. -/
def dynamic_truth_table.words (tt : dynamic_truth_table) : List Nat :=
  (List.range (num_words tt.num_vars)).map (fun j => tt.table / 2 ^ (64 * j) % 2 ^ 64)

/-- Modelled from the spec: the constant-zero table
`kitty::dynamic_truth_table( num_vars )`. -/
def tt_const0 (num_vars : Nat) : dynamic_truth_table :=
  ⟨num_vars, 0⟩

/-- Modelled from the spec: bitwise complement `~tt` (all `2 ^ num_vars` positions
are flipped). -/
def tt_not (tt : dynamic_truth_table) : dynamic_truth_table :=
  ⟨tt.num_vars, 2 ^ (2 ^ tt.num_vars) - 1 - tt.table⟩

/-- Modelled from the spec: bitwise conjunction `a & b`. -/
def tt_and (a b : dynamic_truth_table) : dynamic_truth_table :=
  ⟨a.num_vars, a.table &&& b.table⟩

/-- Modelled from the spec: bitwise exclusive or `a ^ b`. -/
def tt_xor (a b : dynamic_truth_table) : dynamic_truth_table :=
  ⟨a.num_vars, a.table ^^^ b.table⟩

/-- The number whose bit `p`, for `p < width`, is `f p`. -/
def of_bits (f : Nat → Bool) : Nat → Nat
  | 0 => 0
  | width + 1 => (if f width then 2 ^ width else 0) + of_bits f width

/-- Modelled from the spec: the canonical encoding of variable `var`
(`kitty::create_nth_var`); position `p` holds bit `var` of `p`, "the standard
boolean-cube encoding". -/
def tt_nth_var (num_vars var : Nat) : dynamic_truth_table :=
  ⟨num_vars, of_bits (fun p => p.testBit var) (2 ^ num_vars)⟩

/-! ## Simulators and forward simulation (`simulation.hpp`) -/

/-- Modelled from the spec: the simulator with the value algebra the network
applies at its gates ("bitwise value algebra"). -/
structure simulator (α : Type) where
  compute_constant : Bool → α
  compute_pi : Nat → α
  compute_not : α → α
  compute_and : α → α → α
  compute_xor : α → α → α

/-- Modelled from the spec: `default_simulator<kitty::dynamic_truth_table>( num_vars )`,
"the canonical per-input SimulationValue". -/
def default_simulator (num_vars : Nat) : simulator dynamic_truth_table where
  compute_constant := fun value => if value then tt_not (tt_const0 num_vars) else tt_const0 num_vars
  compute_pi := fun index => tt_nth_var num_vars index
  compute_not := tt_not
  compute_and := tt_and
  compute_xor := tt_xor

/-- Modelled from the spec: `default_simulator<bool>( assignments )`, the
evaluation of a network at one input assignment. -/
def bool_simulator (assignments : Nat → Bool) : simulator Bool where
  compute_constant := fun value => value
  compute_pi := fun index => assignments index
  compute_not := fun value => !value
  compute_and := fun a b => a && b
  compute_xor := fun a b => xor a b

/-- Modelled from the spec: `unordered_node_map<T, Ntk>`, a partial map from
node index to value. -/
abbrev node_map (α : Type) := Nat → Option α

/-- Modelled from the spec: the map after `reset()`. -/
def node_map.empty {α : Type} : node_map α :=
  fun _ => none

/-- Modelled from the spec: the membership test `has( n )`. -/
def node_map.has {α : Type} (m : node_map α) (n : Nat) : Bool :=
  (m n).isSome

/-- Modelled from the spec: read access `m[n]`; a missing entry reads as the
default value. -/
def node_map.get {α : Type} [Inhabited α] (m : node_map α) (n : Nat) : α :=
  (m n).getD default

/-- Modelled from the spec: the assignment `m[n] = v`. -/
def node_map.set {α : Type} (m : node_map α) (n : Nat) (v : α) : node_map α :=
  fun k => if k = n then some v else m k

/-- Modelled from the spec: `Ntk::compute`, the local function of a gate applied
to the values of its fanins, with the fanin polarities applied first. -/
def compute {α : Type} (sim : simulator α) (g : gate) (v0 v1 : α) : α :=
  let a := if g.fanin0.complement then sim.compute_not v0 else v0
  let b := if g.fanin1.complement then sim.compute_not v1 else v1
  match g.kind with
  | gate_kind.and_gate => sim.compute_and a b
  | gate_kind.xor_gate => sim.compute_xor a b

/-- Modelled from the spec: the primary-input pass of `simulate_nodes`; inputs
`0 .. count - 1` that have no value yet receive the simulator's value. -/
def simulate_pis {α : Type} (sim : simulator α) : Nat → node_map α → node_map α
  | 0, m => m
  | i + 1, m =>
    let m1 := simulate_pis sim i m
    if m1.has (i + 1) then m1 else m1.set (i + 1) (sim.compute_pi i)

/-- Modelled from the spec: the gate pass of `simulate_nodes`, over the gates from
node index `idx` on; a gate that has no value yet is computed from its fanins. -/
def simulate_gates {α : Type} [Inhabited α] (sim : simulator α) :
    List gate → Nat → node_map α → node_map α
  | [], _, m => m
  | g :: gs, idx, m =>
    simulate_gates sim gs (idx + 1)
      (if m.has idx then m
       else m.set idx (compute sim g (m.get g.fanin0.index) (m.get g.fanin1.index)))

/-- Modelled from the spec: `simulate_nodes( ntk, node_to_value, sim )`, which
"fills in every internal node's value" of a map seeded with input values. -/
def simulate_nodes {α : Type} [Inhabited α] (sim : simulator α) (ntk : network)
    (node_to_value : node_map α) : node_map α :=
  let m0 := if node_to_value.has 0 then node_to_value
            else node_to_value.set 0 (sim.compute_constant false)
  simulate_gates sim ntk.gates (ntk.num_pis + 1) (simulate_pis sim ntk.num_pis m0)

/-- Modelled from the spec: the value of the output signal `f` of `ntk` at the input
assignment `x`, the reference semantics of a network. -/
def output_value (ntk : network) (x : Nat → Bool) (f : signal) : Bool :=
  let v := (simulate_nodes (bool_simulator x) ntk node_map.empty).get f.index
  if f.complement then !v else v

/-- Modelled from the spec: the values of all outputs of `ntk` at the input
assignment `x`. -/
def outputs (ntk : network) (x : Nat → Bool) : List Bool :=
  ntk.pos.map (output_value ntk x)

/-! ## The miter (`miter.hpp`) -/

/-- Modelled from the spec: the node renaming used when the second network is
copied behind the first; constants and primary inputs are shared, gates move up
by `offset`. -/
def shift_signal (num_pis offset : Nat) (s : signal) : signal :=
  if s.index ≤ num_pis then s else ⟨s.index + offset, s.complement⟩

/-- Modelled from the spec: a gate with both fanins renamed. -/
def shift_gate (num_pis offset : Nat) (g : gate) : gate :=
  ⟨g.kind, shift_signal num_pis offset g.fanin0, shift_signal num_pis offset g.fanin1⟩

/-- Modelled from the spec: the miter, "a LogicNetwork produced by structurally
combining two input networks of equal output arity; for each output pair it
instantiates an XOR"; it "returns either a combined network or a failure
indicator (mismatched interfaces)". -/
def miter (ntk1 ntk2 : network) : Option network :=
  if ntk1.num_pis ≠ ntk2.num_pis ∨ ntk1.num_pos ≠ ntk2.num_pos then none
  else
    let n := ntk1.num_pis
    let offset := ntk1.gates.length
    let xors := List.zipWith (fun o1 o2 => gate.mk gate_kind.xor_gate o1 o2) ntk1.pos
      (ntk2.pos.map (shift_signal n offset))
    let base := 1 + n + offset + ntk2.gates.length
    some ⟨n, ntk1.gates ++ (ntk2.gates.map (shift_gate n offset) ++ xors),
      (List.range xors.length).map (fun j => ⟨base + j, false⟩)⟩

/-! ## Machine arithmetic -/

/-- The values a target gives to the operations of `run` that ISO C++ leaves
undefined: a 32-bit shift by 32 or more, and the conversion to `uint32_t` of a
floating-point value outside its range. Theorems that hold for every `platform`
do not depend on how these are resolved. -/
structure platform where
  shl_wide : Nat → Nat → Nat
  shr_wide : Nat → Nat → Nat
  cast_u32 : Nat → Nat

/-- A target that takes shift counts modulo 32 (x86-64, AArch64) and converts
an out-of-range floating-point value to zero. -/
def masking_platform : platform where
  shl_wide := fun a k => a * 2 ^ (k % 32)
  shr_wide := fun a k => a / 2 ^ (k % 32)
  cast_u32 := fun _ => 0

/-- A target on which a shift by 32 or more shifts every bit out. -/
def truncating_platform : platform where
  shl_wide := fun _ _ => 0
  shr_wide := fun _ _ => 0
  cast_u32 := fun _ => 0

/-- The shift `a << k` on `uint32_t`. -/
def shl32 (pf : platform) (a k : Nat) : Nat :=
  if k < 32 then a * 2 ^ k % 2 ^ 32 else pf.shl_wide a k % 2 ^ 32

/-- The shift `a >> k` on `uint32_t`. -/
def shr32 (pf : platform) (a k : Nat) : Nat :=
  if k < 32 then a / 2 ^ k else pf.shr_wide a k % 2 ^ 32

/-! ## `simulation_cec.hpp` -/

/-- Statistics to be reported. -/
structure simulation_cec_stats where
  split_var : Nat := 0
  rounds : Nat := 0
deriving DecidableEq

/-- The candidate `uint32_t tmp = floor( log2( pow( 2, 29 ) / num_nodes - 32 ) + 3 )`.
With `x = 2^29 / V - 32`, `log2 x + 3 = log2 (8 x)` and `8 x = (2^32 - 256 V) / V`,
so for `8 x ≥ 1`, that is `0 < V` and `257 V ≤ 2^32`, the floor is the integer
logarithm of `⌊(2^32 - 256 V) / V⌋`. Otherwise the expression is negative,
infinite or not a number and its conversion is left to the platform. -/
def selector_tmp (pf : platform) (num_nodes : Nat) : Nat :=
  if 0 < num_nodes ∧ 257 * num_nodes ≤ 2 ^ 32 then
    Nat.log 2 ((2 ^ 32 - 256 * num_nodes) / num_nodes)
  else pf.cast_u32 num_nodes % 2 ^ 32

/-- Step 1 of `run`, the partition-size selector: `split_var` and `rounds` from
the number of inputs and the number of nodes. -/
def selector (pf : platform) (num_inputs num_nodes : Nat) : simulation_cec_stats :=
  let split_var :=
    if num_inputs ≤ 6 then num_inputs
    else
      let tmp := selector_tmp pf num_nodes
      if num_inputs ≤ tmp then num_inputs else tmp
  { split_var := split_var, rounds := shl32 pf 1 (num_inputs - split_var) }

/-- The pattern assignment of one round (the `foreach_pi` of the round loop),
over inputs `0 .. count - 1`: input `i ≥ split_var` is set to the all-ones or the
all-zeros table according to bit `i - split_var` of `round`. -/
def update_patterns (pf : platform) (num_pis split_var round : Nat) :
    Nat → node_map dynamic_truth_table → node_map dynamic_truth_table
  | 0, patterns => patterns
  | i + 1, patterns =>
    let p1 := update_patterns pf num_pis split_var round i patterns
    if i ≥ split_var then
      let index := i - split_var
      if shr32 pf round index % 2 ≠ 0 then p1.set (i + 1) (tt_not (tt_const0 num_pis))
      else p1.set (i + 1) (tt_const0 num_pis)
    else p1

/-- The output check of one output `f`: every non-zero word of the output's
table, polarity applied, clears `result`. -/
def check_po (patterns : node_map dynamic_truth_table) (result : Bool) (f : signal) : Bool :=
  let tt_bits :=
    (if f.complement then tt_not (patterns.get f.index) else patterns.get f.index).words
  tt_bits.foldl (fun res w => if w ≠ 0 then res && false else res) result

/-- The `foreach_po` of the output check. -/
def check_pos (ntk : network) (patterns : node_map dynamic_truth_table) (result : Bool) : Bool :=
  ntk.pos.foldl (check_po patterns) result

/-- One round of the loop body: pattern assignment, simulation, output check. -/
def simulate_round (pf : platform) (ntk : network) (split_var round : Nat) (result : Bool) :
    Bool :=
  let patterns := update_patterns pf ntk.num_pis split_var round ntk.num_pis node_map.empty
  let patterns := simulate_nodes (default_simulator ntk.num_pis) ntk patterns
  check_pos ntk patterns result

/-- The round loop `for ( round = 0u; round < rounds; round = round + 1u )` with
its early return; `todo` counts the iterations left, `rounds - round`. -/
def round_loop (pf : platform) (ntk : network) (split_var : Nat) : Nat → Nat → Bool → Bool
  | 0, _, result => result
  | todo + 1, round, result =>
    let result1 := simulate_round pf ntk split_var round result
    if !result1 then result1 else round_loop pf ntk split_var todo (round + 1) result1

/-- Outcome of a call: the assertion of `run` failed, or the call returned. -/
inductive exec (α : Type) where
  | assert_fail : exec α
  | done : α → exec α
deriving DecidableEq

/-- The method `simulation_cec_impl::run`: the verdict and the statistics record
it leaves in `_st`. -/
def run (pf : platform) (ntk : network) : exec (Bool × simulation_cec_stats) :=
  let num_nodes := ntk.size
  let num_inputs := ntk.num_pis
  if ¬ num_inputs ≤ 40 then exec.assert_fail
  else
    let st := selector pf num_inputs num_nodes
    if st.rounds = 1 then
      let patterns := simulate_nodes (default_simulator num_inputs) ntk node_map.empty
      exec.done (check_pos ntk patterns true, st)
    else exec.done (round_loop pf ntk st.split_var st.rounds 0 true, st)

/-- The entry point `simulation_cec( ntk1, ntk2, pst )`. `pst` is `none` for a
null pointer and otherwise the caller's record before the call; the result is the
returned `std::optional<bool>` and the caller's record after the call. -/
def simulation_cec (pf : platform) (ntk1 ntk2 : network) (pst : Option simulation_cec_stats) :
    exec (Option Bool × Option simulation_cec_stats) :=
  let st : simulation_cec_stats := {}
  let result := false
  if ntk1.num_pis > 40 then exec.done (none, pst)
  else
    match miter ntk1 ntk2 with
    | some ntk_miter =>
      match run pf ntk_miter with
      | exec.assert_fail => exec.assert_fail
      | exec.done (result1, st1) => exec.done (some result1, pst.map (fun _ => st1))
    | none => exec.done (some result, pst.map (fun _ => st))

/-! ## Example networks -/

/-- The network `AND(x0, x1)`. -/
def and2 : network :=
  ⟨2, [⟨gate_kind.and_gate, ⟨1, false⟩, ⟨2, false⟩⟩], [⟨3, false⟩]⟩

/-- The network `OR(x0, x1)`, as the complement of `AND(!x0, !x1)`. -/
def or2 : network :=
  ⟨2, [⟨gate_kind.and_gate, ⟨1, true⟩, ⟨2, true⟩⟩], [⟨3, true⟩]⟩

/-! ## Further definitions: proof vocabulary and example networks -/

/-- A table over `n` variables whose bits all lie in the `2 ^ n` positions. -/
def tt_valid (n : Nat) (t : dynamic_truth_table) : Prop :=
  t.num_vars = n ∧ t.table < 2 ^ (2 ^ n)

/-- The table given to the fixed input `i` in round `round`. -/
def fixed_value (pf : platform) (n split_var round i : Nat) : dynamic_truth_table :=
  if shr32 pf round (i - split_var) % 2 ≠ 0 then tt_not (tt_const0 n) else tt_const0 n

/-- The input assignment simulated at position `p` of round `round`: free inputs
take the bits of `p`, fixed inputs the bits of `round`. -/
def round_assignment (pf : platform) (split_var round p : Nat) : Nat → Bool :=
  fun i => if split_var ≤ i then decide (shr32 pf round (i - split_var) % 2 ≠ 0) else p.testBit i

/-- Below `idx` both maps are filled, the table being valid and holding at
position `p` the boolean value; from `idx` on both maps are empty. -/
def sim_rel (n p : Nat) (m : node_map dynamic_truth_table) (mb : node_map Bool) (idx : Nat) :
    Prop :=
  (∀ j, j < idx → ∃ t b, m j = some t ∧ mb j = some b ∧ tt_valid n t ∧ t.table.testBit p = b)
    ∧ (∀ j, idx ≤ j → m j = none ∧ mb j = none)

/-- The input assignments that `run` simulates on a network with `n` inputs and
`V` nodes. -/
def simulated (pf : platform) (n V : Nat) (x : Nat → Bool) : Prop :=
  if (selector pf n V).rounds = 1 then ∃ p, p < 2 ^ n ∧ x = fun i => p.testBit i
  else ∃ r, r < (selector pf n V).rounds ∧ ∃ p, p < 2 ^ n ∧
    x = round_assignment pf (selector pf n V).split_var r p

/-- The map of `simulate_nodes` before its gate pass. -/
def init_map (x : Nat → Bool) (n : Nat) : node_map Bool :=
  simulate_pis (bool_simulator x) n
    (if (node_map.empty : node_map Bool).has 0 then node_map.empty
      else (node_map.empty : node_map Bool).set 0 ((bool_simulator x).compute_constant false))

/-- Index of a node of the second network inside the miter. -/
def shift_index (n offset j : Nat) : Nat :=
  if j ≤ n then j else j + offset

/-- The map `mM` of the miter holds, at the renamed indices, the values of the
map `mB` of the second network, which is filled up to `idx` only. -/
def shift_rel (n offset : Nat) (mB mM : node_map Bool) (idx : Nat) : Prop :=
  (∀ j, j < idx → mM (shift_index n offset j) = mB j)
    ∧ (∀ j, idx ≤ j → mB j = none) ∧ (∀ j, idx + offset ≤ j → mM j = none)

/-- Value of a signal in a map of node values, polarity applied. -/
def signal_value (m : node_map Bool) (s : signal) : Bool :=
  if s.complement then !(m.get s.index) else m.get s.index

/-- The network built by `miter` when the interfaces match. -/
def miter_network (ntk1 ntk2 : network) : network :=
  ⟨ntk1.num_pis,
    ntk1.gates ++ (ntk2.gates.map (shift_gate ntk1.num_pis ntk1.gates.length)
      ++ List.zipWith (fun o1 o2 => gate.mk gate_kind.xor_gate o1 o2) ntk1.pos
          (ntk2.pos.map (shift_signal ntk1.num_pis ntk1.gates.length))),
    (List.range (List.zipWith (fun o1 o2 => gate.mk gate_kind.xor_gate o1 o2) ntk1.pos
        (ntk2.pos.map (shift_signal ntk1.num_pis ntk1.gates.length))).length).map
      (fun j => ⟨1 + ntk1.num_pis + ntk1.gates.length + ntk2.gates.length + j, false⟩)⟩

/-- Gate `k` of a chain of AND gates over 40 inputs: the first gate is
`x8 AND x0`, every further gate is the previous gate AND `x0`. -/
def chain_gate (k : Nat) : gate :=
  if k = 0 then ⟨gate_kind.and_gate, ⟨9, false⟩, ⟨1, false⟩⟩
  else ⟨gate_kind.and_gate, ⟨40 + k, false⟩, ⟨1, false⟩⟩

/-- The chain of `len` gates, its last gate being the only output. -/
def chain_network (len : Nat) : network :=
  ⟨40, (List.range len).map chain_gate, [⟨40 + len, false⟩]⟩

/-- The network over 40 inputs whose only output is the constant false. -/
def zero_network : network :=
  ⟨40, [], [⟨0, false⟩]⟩

/-- Majority of three inputs as `(x0 AND x1) XOR (x2 AND (x0 XOR x1))`. -/
def maj3_xor : network :=
  ⟨3, [⟨gate_kind.and_gate, ⟨1, false⟩, ⟨2, false⟩⟩, ⟨gate_kind.xor_gate, ⟨1, false⟩, ⟨2, false⟩⟩,
       ⟨gate_kind.and_gate, ⟨3, false⟩, ⟨5, false⟩⟩, ⟨gate_kind.xor_gate, ⟨4, false⟩, ⟨6, false⟩⟩],
    [⟨7, false⟩]⟩

/-- Majority of three inputs as `(x0 AND x1) OR (x2 AND (x0 OR x1))`, with AND
gates and complemented edges only. -/
def maj3_and : network :=
  ⟨3, [⟨gate_kind.and_gate, ⟨1, false⟩, ⟨2, false⟩⟩, ⟨gate_kind.and_gate, ⟨1, true⟩, ⟨2, true⟩⟩,
       ⟨gate_kind.and_gate, ⟨3, false⟩, ⟨5, true⟩⟩, ⟨gate_kind.and_gate, ⟨4, true⟩, ⟨6, true⟩⟩],
    [⟨7, true⟩]⟩

/-- A network with 41 inputs and a constant output. -/
def wide41 : network :=
  ⟨41, [], [⟨0, false⟩]⟩

/-- A network with three inputs that outputs its first input. -/
def buffer3 : network :=
  ⟨3, [], [⟨1, false⟩]⟩

/-- A target that masks shift counts and on which the out-of-range conversion
wraps around, as the conversion of `-1.0` to `2 ^ 32 - 1` does on x86-64. -/
def wrapping_platform : platform where
  shl_wide := fun a k => a * 2 ^ (k % 32)
  shr_wide := fun a k => a / 2 ^ (k % 32)
  cast_u32 := fun _ => 2 ^ 32 - 1

/-- The round loop as the specification words the comparison: "the same loop run
to completion over all rounds without the early return". -/
def round_loop_complete (pf : platform) (ntk : network) (split_var : Nat) :
    Nat → Nat → Bool → Bool
  | 0, _, result => result
  | todo + 1, round, result =>
    round_loop_complete pf ntk split_var todo (round + 1)
      (simulate_round pf ntk split_var round result)

/-- The round loop of `run` together with the list of the rounds it evaluates. -/
def round_loop_trace (pf : platform) (ntk : network) (split_var : Nat) :
    Nat → Nat → Bool → Bool × List Nat
  | 0, _, result => (result, [])
  | todo + 1, round, result =>
    let result1 := simulate_round pf ntk split_var round result
    if !result1 then (result1, [round])
    else
      ((round_loop_trace pf ntk split_var todo (round + 1) result1).1,
        round :: (round_loop_trace pf ntk split_var todo (round + 1) result1).2)

/-- A network with 32 inputs that outputs its first input. -/
def buffer32 : network :=
  ⟨32, [], [⟨1, false⟩]⟩

/-- A network with 32 inputs that outputs its input `x27`. -/
def probe32 : network :=
  ⟨32, [], [⟨28, false⟩]⟩

/-! ## The selector -/

theorem shl32_zero (pf : platform) : shl32 pf 1 0 = 1 := by
  simp [shl32]

theorem shl32_of_lt (pf : platform) {k : Nat} (hk : k < 32) : shl32 pf 1 k = 2 ^ k := by
  have h : 2 ^ k < 2 ^ 32 := Nat.pow_lt_pow_right (by norm_num) hk
  simp only [shl32, if_pos hk, one_mul]
  exact Nat.mod_eq_of_lt h

theorem shl32_lt (pf : platform) (a k : Nat) : shl32 pf a k < 2 ^ 32 := by
  unfold shl32
  split <;> exact Nat.mod_lt _ (by positivity)

theorem selector_split_var_le (pf : platform) (n V : Nat) : (selector pf n V).split_var ≤ n := by
  simp only [selector]
  split
  · exact le_rfl
  · split
    · exact le_rfl
    · omega

theorem selector_rounds (pf : platform) (n V : Nat) :
    (selector pf n V).rounds = shl32 pf 1 (n - (selector pf n V).split_var) := rfl

theorem selector_small (pf : platform) (n V : Nat) (hn : n ≤ 6) :
    selector pf n V = { split_var := n, rounds := 1 } := by
  simp [selector, hn, shl32_zero]

theorem selector_tmp_8388608 (pf : platform) : selector_tmp pf 8388608 = 8 := by
  have h : Nat.log 2 ((2 ^ 32 - 256 * 8388608) / 8388608) = 8 := by
    rw [Nat.log_eq_iff (by norm_num)]
    norm_num
  simp only [selector_tmp]
  rw [if_pos (by norm_num)]
  exact h

theorem selector_tmp_8388650 (pf : platform) : selector_tmp pf 8388650 = 7 := by
  have h : Nat.log 2 ((2 ^ 32 - 256 * 8388650) / 8388650) = 7 := by
    rw [Nat.log_eq_iff (by norm_num)]
    norm_num
  simp only [selector_tmp]
  rw [if_pos (by norm_num)]
  exact h

theorem selector_40_8388608 (pf : platform) :
    (selector pf 40 8388608).split_var = 8 := by
  simp [selector, selector_tmp_8388608]

/-! ## Truth tables -/

theorem of_bits_lt (f : Nat → Bool) (w : Nat) : of_bits f w < 2 ^ w := by
  induction w with
  | zero => simp [of_bits]
  | succ w ih =>
    simp only [of_bits]
    have h2 : 2 ^ (w + 1) = 2 ^ w + 2 ^ w := by ring
    split <;> omega

theorem of_bits_testBit (f : Nat → Bool) (w p : Nat) :
    (of_bits f w).testBit p = (decide (p < w) && f p) := by
  induction w with
  | zero => simp [of_bits]
  | succ w ih =>
    have hlt := of_bits_lt f w
    simp only [of_bits]
    rcases Nat.lt_trichotomy p w with hp | hp | hp
    · have hp1 : p < w + 1 := by omega
      by_cases hf : f w
      · rw [if_pos hf, Nat.testBit_two_pow_add_gt hp, ih]
        simp [hp, hp1]
      · rw [if_neg hf, Nat.zero_add, ih]
        simp [hp, hp1]
    · subst hp
      by_cases hf : f p
      · rw [if_pos hf, Nat.testBit_two_pow_add_eq, Nat.testBit_lt_two_pow hlt]
        simp [hf]
      · rw [if_neg hf, Nat.zero_add, Nat.testBit_lt_two_pow hlt]
        simp [hf]
    · have hbound : (if f w then 2 ^ w else 0) + of_bits f w < 2 ^ p := by
        have h1 : 2 ^ (w + 1) ≤ 2 ^ p := Nat.pow_le_pow_right (by norm_num) hp
        have h2 : 2 ^ (w + 1) = 2 ^ w + 2 ^ w := by ring
        split <;> omega
      rw [Nat.testBit_lt_two_pow hbound]
      have hp1 : ¬ p < w + 1 := by omega
      simp [hp1]

theorem tt_const0_valid (n : Nat) : tt_valid n (tt_const0 n) :=
  ⟨rfl, by simp [tt_const0]⟩

theorem tt_const0_testBit (n p : Nat) : (tt_const0 n).table.testBit p = false := by
  simp [tt_const0]

theorem tt_not_valid {n : Nat} {t : dynamic_truth_table} (h : tt_valid n t) :
    tt_valid n (tt_not t) := by
  obtain ⟨h1, h2⟩ := h
  refine ⟨h1, ?_⟩
  simp only [tt_not, h1]
  have : 0 < 2 ^ (2 ^ n) := by positivity
  omega

theorem tt_not_testBit {n : Nat} {t : dynamic_truth_table} (h : tt_valid n t) {p : Nat}
    (hp : p < 2 ^ n) : (tt_not t).table.testBit p = !t.table.testBit p := by
  obtain ⟨h1, h2⟩ := h
  simp only [tt_not, h1]
  have e : 2 ^ (2 ^ n) - 1 - t.table = 2 ^ (2 ^ n) - (t.table + 1) := by omega
  rw [e, Nat.testBit_two_pow_sub_succ h2]
  simp [hp]

theorem tt_and_valid {n : Nat} {a b : dynamic_truth_table} (ha : tt_valid n a)
    (hb : tt_valid n b) : tt_valid n (tt_and a b) :=
  ⟨ha.1, Nat.and_lt_two_pow _ hb.2⟩

theorem tt_xor_valid {n : Nat} {a b : dynamic_truth_table} (ha : tt_valid n a)
    (hb : tt_valid n b) : tt_valid n (tt_xor a b) :=
  ⟨ha.1, Nat.xor_lt_two_pow ha.2 hb.2⟩

theorem tt_and_testBit (a b : dynamic_truth_table) (p : Nat) :
    (tt_and a b).table.testBit p = (a.table.testBit p && b.table.testBit p) := by
  simp [tt_and]

theorem tt_xor_testBit (a b : dynamic_truth_table) (p : Nat) :
    (tt_xor a b).table.testBit p = xor (a.table.testBit p) (b.table.testBit p) := by
  simp [tt_xor]

theorem tt_nth_var_valid (n i : Nat) : tt_valid n (tt_nth_var n i) :=
  ⟨rfl, of_bits_lt _ _⟩

theorem tt_nth_var_testBit (n i : Nat) {p : Nat} (hp : p < 2 ^ n) :
    (tt_nth_var n i).table.testBit p = p.testBit i := by
  simp [tt_nth_var, of_bits_testBit, hp]

theorem num_words_bound (n : Nat) : 2 ^ n ≤ 64 * num_words n := by
  unfold num_words
  split
  · rename_i h
    have : 2 ^ n ≤ 2 ^ 6 := Nat.pow_le_pow_right (by norm_num) h
    omega
  · rename_i h
    have e : 2 ^ n = 2 ^ 6 * 2 ^ (n - 6) := by
      rw [← pow_add]
      congr 1
      omega
    omega

theorem word_testBit (t j q : Nat) (hq : q < 64) :
    (t / 2 ^ (64 * j) % 2 ^ 64).testBit q = t.testBit (64 * j + q) := by
  rw [Nat.testBit_mod_two_pow, ← Nat.shiftRight_eq_div_pow, Nat.testBit_shiftRight]
  simp [hq]

theorem words_all_zero_iff {n : Nat} {t : dynamic_truth_table} (h : tt_valid n t) :
    (∀ w ∈ t.words, w = 0) ↔ t.table = 0 := by
  obtain ⟨h1, h2⟩ := h
  constructor
  · intro hw
    apply Nat.eq_of_testBit_eq
    intro p
    rw [Nat.zero_testBit]
    by_cases hp : p < 2 ^ n
    · have hj : p / 64 < num_words n := by
        have := num_words_bound n
        omega
      have hmem : t.table / 2 ^ (64 * (p / 64)) % 2 ^ 64 ∈ t.words := by
        simp only [dynamic_truth_table.words, List.mem_map, List.mem_range, h1]
        exact ⟨p / 64, hj, rfl⟩
      have hz := hw _ hmem
      have hb := word_testBit t.table (p / 64) (p % 64) (Nat.mod_lt _ (by norm_num))
      rw [hz, Nat.zero_testBit, Nat.div_add_mod] at hb
      exact hb.symm
    · apply Nat.testBit_lt_two_pow
      have : 2 ^ (2 ^ n) ≤ 2 ^ p := Nat.pow_le_pow_right (by norm_num) (by omega)
      omega
  · intro hz w hw
    simp only [dynamic_truth_table.words, List.mem_map, List.mem_range, hz] at hw
    obtain ⟨j, _, rfl⟩ := hw
    simp

theorem check_words_foldl (ws : List Nat) (result : Bool) :
    ws.foldl (fun res w => if w ≠ 0 then res && false else res) result
      = (result && decide (∀ w ∈ ws, w = 0)) := by
  induction ws generalizing result with
  | nil => simp
  | cons w ws ih =>
    simp only [List.foldl_cons, ih, List.mem_cons, forall_eq_or_imp]
    by_cases hw : w = 0
    · simp [hw]
    · simp [hw]

/-! ## Forward simulation -/

theorem update_patterns_apply (pf : platform) (n sv r c : Nat)
    (m : node_map dynamic_truth_table) (j : Nat) :
    update_patterns pf n sv r c m j
      = if 1 ≤ j ∧ j ≤ c ∧ sv + 1 ≤ j then some (fixed_value pf n sv r (j - 1)) else m j := by
  induction c with
  | zero =>
    have h : ¬ (1 ≤ j ∧ j ≤ 0 ∧ sv + 1 ≤ j) := by omega
    rw [if_neg h]
    rfl
  | succ c ih =>
    simp only [update_patterns]
    by_cases hc : c ≥ sv
    · rw [if_pos hc]
      by_cases hj : j = c + 1
      · subst hj
        have h : 1 ≤ c + 1 ∧ c + 1 ≤ c + 1 ∧ sv + 1 ≤ c + 1 := by omega
        rw [if_pos h]
        by_cases hb : shr32 pf r (c - sv) % 2 ≠ 0
        · simp [node_map.set, fixed_value, hb]
        · simp only [ne_eq, Decidable.not_not] at hb
          simp [node_map.set, fixed_value, hb]
      · have e : (1 ≤ j ∧ j ≤ c + 1 ∧ sv + 1 ≤ j) ↔ (1 ≤ j ∧ j ≤ c ∧ sv + 1 ≤ j) := by omega
        split <;> simp only [node_map.set, if_neg hj, ih, e]
    · rw [if_neg hc, ih]
      have e : (1 ≤ j ∧ j ≤ c + 1 ∧ sv + 1 ≤ j) ↔ (1 ≤ j ∧ j ≤ c ∧ sv + 1 ≤ j) := by omega
      simp only [e]

theorem simulate_pis_apply {α : Type} (sim : simulator α) (c : Nat) (m : node_map α) (j : Nat) :
    simulate_pis sim c m j
      = if 1 ≤ j ∧ j ≤ c then some ((m j).getD (sim.compute_pi (j - 1))) else m j := by
  induction c with
  | zero =>
    have h : ¬ (1 ≤ j ∧ j ≤ 0) := by omega
    rw [if_neg h]
    rfl
  | succ c ih =>
    simp only [simulate_pis]
    by_cases hj : j = c + 1
    · subst hj
      have h : 1 ≤ c + 1 ∧ c + 1 ≤ c + 1 := by omega
      have h0 : ¬ (1 ≤ c + 1 ∧ c + 1 ≤ c) := by omega
      have e : simulate_pis sim c m (c + 1) = m (c + 1) := by rw [ih, if_neg h0]
      rw [if_pos h]
      cases hm : m (c + 1) with
      | none => simp [node_map.has, node_map.set, e, hm]
      | some v => simp [node_map.has, e, hm]
    · have e : (1 ≤ j ∧ j ≤ c + 1) ↔ (1 ≤ j ∧ j ≤ c) := by omega
      split <;> simp only [node_map.set, if_neg hj, ih, e]

theorem simulate_gates_sim_irrel {α : Type} [Inhabited α] (s1 s2 : simulator α)
    (hn : s1.compute_not = s2.compute_not) (ha : s1.compute_and = s2.compute_and)
    (hx : s1.compute_xor = s2.compute_xor) (gs : List gate) (idx : Nat) (m : node_map α) :
    simulate_gates s1 gs idx m = simulate_gates s2 gs idx m := by
  induction gs generalizing idx m with
  | nil => rfl
  | cons g gs ih =>
    simp only [simulate_gates, compute, hn, ha, hx, ih]

theorem compute_rel (n p : Nat) (hp : p < 2 ^ n) (x : Nat → Bool) (g : gate)
    {t0 t1 : dynamic_truth_table} (h0 : tt_valid n t0) (h1 : tt_valid n t1) :
    tt_valid n (compute (default_simulator n) g t0 t1)
      ∧ (compute (default_simulator n) g t0 t1).table.testBit p
        = compute (bool_simulator x) g (t0.table.testBit p) (t1.table.testBit p) := by
  have ha : tt_valid n (if g.fanin0.complement then tt_not t0 else t0)
      ∧ (if g.fanin0.complement then tt_not t0 else t0).table.testBit p
        = (if g.fanin0.complement then !t0.table.testBit p else t0.table.testBit p) := by
    split
    · exact ⟨tt_not_valid h0, tt_not_testBit h0 hp⟩
    · exact ⟨h0, rfl⟩
  have hb : tt_valid n (if g.fanin1.complement then tt_not t1 else t1)
      ∧ (if g.fanin1.complement then tt_not t1 else t1).table.testBit p
        = (if g.fanin1.complement then !t1.table.testBit p else t1.table.testBit p) := by
    split
    · exact ⟨tt_not_valid h1, tt_not_testBit h1 hp⟩
    · exact ⟨h1, rfl⟩
  cases hk : g.kind with
  | and_gate =>
    simp only [compute, hk, default_simulator, bool_simulator]
    exact ⟨tt_and_valid ha.1 hb.1, by rw [tt_and_testBit, ha.2, hb.2]⟩
  | xor_gate =>
    simp only [compute, hk, default_simulator, bool_simulator]
    exact ⟨tt_xor_valid ha.1 hb.1, by rw [tt_xor_testBit, ha.2, hb.2]⟩

theorem simulate_gates_rel (n p : Nat) (hp : p < 2 ^ n) (x : Nat → Bool) (gs : List gate)
    (idx : Nat) (m : node_map dynamic_truth_table) (mb : node_map Bool)
    (hord : gates_ordered gs idx = true) (h : sim_rel n p m mb idx) :
    sim_rel n p (simulate_gates (default_simulator n) gs idx m)
      (simulate_gates (bool_simulator x) gs idx mb) (idx + gs.length) := by
  induction gs generalizing idx m mb with
  | nil => simpa [simulate_gates] using h
  | cons g gs ih =>
    simp only [gates_ordered, Bool.and_eq_true, decide_eq_true_eq] at hord
    obtain ⟨hf0, hf1, hrest⟩ := hord
    obtain ⟨hlow, hhigh⟩ := h
    obtain ⟨t0, b0, hm0, hb0, hv0, hbit0⟩ := hlow _ hf0
    obtain ⟨t1, b1, hm1, hb1, hv1, hbit1⟩ := hlow _ hf1
    have hidx := hhigh idx le_rfl
    have hc := compute_rel n p hp x g hv0 hv1
    simp only [simulate_gates, node_map.has, hidx.1, hidx.2, Option.isSome_none, Bool.false_eq_true,
      if_false, node_map.get, hm0, hm1, hb0, hb1, Option.getD_some]
    have e : idx + (g :: gs).length = idx + 1 + gs.length := by simp; omega
    rw [e]
    apply ih (idx + 1) _ _ hrest
    constructor
    · intro j hj
      by_cases hji : j = idx
      · subst hji
        refine ⟨compute (default_simulator n) g t0 t1, compute (bool_simulator x) g b0 b1,
          by simp [node_map.set], by simp [node_map.set], hc.1, ?_⟩
        rw [hc.2, hbit0, hbit1]
      · obtain ⟨t, b, h1, h2, h3, h4⟩ := hlow j (by omega)
        exact ⟨t, b, by simp [node_map.set, hji, h1], by simp [node_map.set, hji, h2], h3, h4⟩
    · intro j hj
      have hji : j ≠ idx := by omega
      have := hhigh j (by omega)
      simp [node_map.set, hji, this.1, this.2]

theorem fixed_value_valid (pf : platform) (n sv r i : Nat) :
    tt_valid n (fixed_value pf n sv r i) := by
  unfold fixed_value
  split
  · exact tt_not_valid (tt_const0_valid n)
  · exact tt_const0_valid n

theorem fixed_value_testBit (pf : platform) (n sv r i : Nat) {p : Nat} (hp : p < 2 ^ n) :
    (fixed_value pf n sv r i).table.testBit p = decide (shr32 pf r (i - sv) % 2 ≠ 0) := by
  unfold fixed_value
  by_cases h : shr32 pf r (i - sv) % 2 ≠ 0
  · rw [if_pos h, tt_not_testBit (tt_const0_valid n) hp, tt_const0_testBit]
    simp [h]
  · rw [if_neg h, tt_const0_testBit]
    simp [h]

theorem round_init_rel (pf : platform) (n sv r p : Nat) (hp : p < 2 ^ n) :
    sim_rel n p
      (simulate_pis (default_simulator n) n
        (if (update_patterns pf n sv r n node_map.empty).has 0
          then update_patterns pf n sv r n node_map.empty
          else (update_patterns pf n sv r n node_map.empty).set 0
            ((default_simulator n).compute_constant false)))
      (simulate_pis (bool_simulator (round_assignment pf sv r p)) n
        (if (node_map.empty : node_map Bool).has 0 then node_map.empty
          else (node_map.empty : node_map Bool).set 0
            ((bool_simulator (round_assignment pf sv r p)).compute_constant false)))
      (n + 1) := by
  have h0 : update_patterns pf n sv r n node_map.empty 0 = none := by
    rw [update_patterns_apply, if_neg (by omega)]
    rfl
  have hhas : (update_patterns pf n sv r n node_map.empty).has 0 = false := by
    simp [node_map.has, h0]
  have hhasb : (node_map.empty : node_map Bool).has 0 = false := rfl
  rw [hhas, hhasb]
  simp only [Bool.false_eq_true, if_false]
  constructor
  · intro j hj
    rw [simulate_pis_apply, simulate_pis_apply]
    by_cases hj0 : j = 0
    · subst hj0
      rw [if_neg (by omega), if_neg (by omega)]
      exact ⟨tt_const0 n, false, by simp [node_map.set, default_simulator],
        by simp [node_map.set, bool_simulator], tt_const0_valid n, tt_const0_testBit n p⟩
    · have hr : 1 ≤ j ∧ j ≤ n := by omega
      rw [if_pos hr, if_pos hr]
      simp only [node_map.set, if_neg hj0, update_patterns_apply]
      by_cases hfix : sv + 1 ≤ j
      · have hc : 1 ≤ j ∧ j ≤ n ∧ sv + 1 ≤ j := by omega
        rw [if_pos hc]
        refine ⟨_, _, rfl, rfl, fixed_value_valid pf n sv r (j - 1), ?_⟩
        rw [Option.getD_some, fixed_value_testBit pf n sv r (j - 1) hp]
        have hsv : sv ≤ j - 1 := by omega
        simp [node_map.empty, bool_simulator, round_assignment, hsv]
      · have hc : ¬ (1 ≤ j ∧ j ≤ n ∧ sv + 1 ≤ j) := by omega
        rw [if_neg hc]
        refine ⟨_, _, rfl, rfl, ?_, ?_⟩
        · simpa [node_map.empty, default_simulator] using tt_nth_var_valid n (j - 1)
        · have hsv : ¬ sv ≤ j - 1 := by omega
          simp [node_map.empty, default_simulator, bool_simulator, round_assignment, hsv,
            tt_nth_var_testBit n (j - 1) hp]
  · intro j hj
    rw [simulate_pis_apply, simulate_pis_apply]
    have hj0 : j ≠ 0 := by omega
    rw [if_neg (by omega), if_neg (by omega)]
    simp only [node_map.set, if_neg hj0, update_patterns_apply]
    rw [if_neg (by omega)]
    exact ⟨rfl, rfl⟩

theorem simulate_nodes_rel (pf : platform) (ntk : network) (sv r p : Nat)
    (hp : p < 2 ^ ntk.num_pis) (hord : gates_ordered ntk.gates (ntk.num_pis + 1) = true) :
    sim_rel ntk.num_pis p
      (simulate_nodes (default_simulator ntk.num_pis) ntk
        (update_patterns pf ntk.num_pis sv r ntk.num_pis node_map.empty))
      (simulate_nodes (bool_simulator (round_assignment pf sv r p)) ntk node_map.empty)
      ntk.size := by
  have e : ntk.size = ntk.num_pis + 1 + ntk.gates.length := by
    simp only [network.size]
    omega
  rw [e]
  exact simulate_gates_rel ntk.num_pis p hp _ ntk.gates _ _ _ hord
    (round_init_rel pf ntk.num_pis sv r p hp)

theorem table_eq_zero_iff {n : Nat} {t : dynamic_truth_table} (h : tt_valid n t) :
    t.table = 0 ↔ ∀ p, p < 2 ^ n → t.table.testBit p = false := by
  constructor
  · intro hz p _
    simp [hz]
  · intro hb
    apply Nat.eq_of_testBit_eq
    intro p
    rw [Nat.zero_testBit]
    by_cases hp : p < 2 ^ n
    · exact hb p hp
    · apply Nat.testBit_lt_two_pow
      have : 2 ^ (2 ^ n) ≤ 2 ^ p := Nat.pow_le_pow_right (by norm_num) (by omega)
      have := h.2
      omega

/-- The output check of one output agrees with the boolean semantics of the
network at every position of the round. -/
theorem check_po_round (pf : platform) (ntk : network) (sv r : Nat)
    (hord : gates_ordered ntk.gates (ntk.num_pis + 1) = true) (f : signal)
    (hf : f.index < ntk.size) (result : Bool) :
    check_po (simulate_nodes (default_simulator ntk.num_pis) ntk
        (update_patterns pf ntk.num_pis sv r ntk.num_pis node_map.empty)) result f = true
      ↔ result = true ∧ ∀ p, p < 2 ^ ntk.num_pis →
          output_value ntk (round_assignment pf sv r p) f = false := by
  -- the table of the output node
  have hex : ∃ t, simulate_nodes (default_simulator ntk.num_pis) ntk
      (update_patterns pf ntk.num_pis sv r ntk.num_pis node_map.empty) f.index = some t
      ∧ tt_valid ntk.num_pis t
      ∧ ∀ p, p < 2 ^ ntk.num_pis →
          simulate_nodes (bool_simulator (round_assignment pf sv r p)) ntk node_map.empty f.index
            = some (t.table.testBit p) := by
    have hp0 : 0 < 2 ^ ntk.num_pis := by positivity
    obtain ⟨t, b, h1, _, h3, _⟩ := (simulate_nodes_rel pf ntk sv r 0 hp0 hord).1 f.index hf
    refine ⟨t, h1, h3, ?_⟩
    intro p hp
    obtain ⟨t', b', h1', h2', _, h4'⟩ := (simulate_nodes_rel pf ntk sv r p hp hord).1 f.index hf
    rw [h1] at h1'
    cases h1'
    rw [h2', h4']
  obtain ⟨t, ht, hv, hb⟩ := hex
  have hval : tt_valid ntk.num_pis (if f.complement then tt_not t else t) := by
    split
    · exact tt_not_valid hv
    · exact hv
  simp only [check_po, check_words_foldl, node_map.get, ht, Option.getD_some, Bool.and_eq_true,
    decide_eq_true_eq]
  rw [words_all_zero_iff hval, table_eq_zero_iff hval]
  apply and_congr Iff.rfl
  apply forall_congr'
  intro p
  apply imp_congr_right
  intro hp
  simp only [output_value, node_map.get, hb p hp, Option.getD_some]
  by_cases hc : f.complement
  · simp only [hc, if_true]
    rw [tt_not_testBit hv hp]
  · simp only [hc, if_false]
    simp

theorem check_pos_foldl_round (pf : platform) (ntk : network) (sv r : Nat)
    (hord : gates_ordered ntk.gates (ntk.num_pis + 1) = true) (fs : List signal)
    (hfs : ∀ f ∈ fs, f.index < ntk.size) (result : Bool) :
    fs.foldl (check_po (simulate_nodes (default_simulator ntk.num_pis) ntk
        (update_patterns pf ntk.num_pis sv r ntk.num_pis node_map.empty))) result = true
      ↔ result = true ∧ ∀ f ∈ fs, ∀ p, p < 2 ^ ntk.num_pis →
          output_value ntk (round_assignment pf sv r p) f = false := by
  induction fs generalizing result with
  | nil => simp
  | cons f fs ih =>
    have hf := hfs f (List.mem_cons_self _ _)
    have hrest : ∀ g ∈ fs, g.index < ntk.size := fun g hg => hfs g (List.mem_cons_of_mem _ hg)
    rw [List.foldl_cons, ih hrest, check_po_round pf ntk sv r hord f hf]
    simp only [List.mem_cons, forall_eq_or_imp]
    tauto

/-- The networks on which the library operates. -/
theorem well_formed_iff (ntk : network) :
    ntk.well_formed = true
      ↔ gates_ordered ntk.gates (ntk.num_pis + 1) = true ∧ ∀ f ∈ ntk.pos, f.index < ntk.size := by
  simp [network.well_formed]

/-- One round is consistent exactly when every output is false at every
assignment the round represents. -/
theorem simulate_round_iff (pf : platform) (ntk : network) (hwf : ntk.well_formed = true)
    (sv r : Nat) (result : Bool) :
    simulate_round pf ntk sv r result = true
      ↔ result = true ∧ ∀ f ∈ ntk.pos, ∀ p, p < 2 ^ ntk.num_pis →
          output_value ntk (round_assignment pf sv r p) f = false := by
  obtain ⟨hord, hpos⟩ := (well_formed_iff ntk).1 hwf
  exact check_pos_foldl_round pf ntk sv r hord ntk.pos hpos result

theorem simulate_nodes_congr (ntk : network) (x y : Nat → Bool)
    (h : ∀ i, i < ntk.num_pis → x i = y i) :
    simulate_nodes (bool_simulator x) ntk node_map.empty
      = simulate_nodes (bool_simulator y) ntk node_map.empty := by
  simp only [simulate_nodes]
  have e : simulate_pis (bool_simulator x) ntk.num_pis
        (if (node_map.empty : node_map Bool).has 0 then node_map.empty
          else (node_map.empty : node_map Bool).set 0 ((bool_simulator x).compute_constant false))
      = simulate_pis (bool_simulator y) ntk.num_pis
        (if (node_map.empty : node_map Bool).has 0 then node_map.empty
          else (node_map.empty : node_map Bool).set 0 ((bool_simulator y).compute_constant false)) := by
    funext j
    rw [simulate_pis_apply, simulate_pis_apply]
    by_cases hj : 1 ≤ j ∧ j ≤ ntk.num_pis
    · rw [if_pos hj, if_pos hj]
      have hx : x (j - 1) = y (j - 1) := h _ (by omega)
      simp [bool_simulator, hx]
    · rw [if_neg hj, if_neg hj]
      rfl
  rw [e]
  exact simulate_gates_sim_irrel (bool_simulator x) (bool_simulator y) rfl rfl rfl _ _ _

/-- The value of an output depends on the assignment of the primary inputs only. -/
theorem output_value_congr (ntk : network) (x y : Nat → Bool)
    (h : ∀ i, i < ntk.num_pis → x i = y i) (f : signal) :
    output_value ntk x f = output_value ntk y f := by
  simp only [output_value, simulate_nodes_congr ntk x y h]

theorem update_patterns_none (pf : platform) (n r : Nat) :
    update_patterns pf n n r n node_map.empty = node_map.empty := by
  funext j
  rw [update_patterns_apply, if_neg (by omega)]

/-- The single pass is consistent exactly when every output is false at every
position of the canonical encoding. -/
theorem single_pass_iff (ntk : network) (hwf : ntk.well_formed = true) :
    check_pos ntk (simulate_nodes (default_simulator ntk.num_pis) ntk node_map.empty) true = true
      ↔ ∀ f ∈ ntk.pos, ∀ p, p < 2 ^ ntk.num_pis →
          output_value ntk (fun i => p.testBit i) f = false := by
  have h := simulate_round_iff truncating_platform ntk hwf ntk.num_pis 0 true
  simp only [simulate_round, update_patterns_none, true_and] at h
  rw [h]
  apply forall_congr'
  intro f
  apply imp_congr_right
  intro _
  apply forall_congr'
  intro p
  apply imp_congr_right
  intro _
  rw [output_value_congr ntk (round_assignment truncating_platform ntk.num_pis 0 p)
    (fun i => p.testBit i)]
  intro i hi
  have : ¬ ntk.num_pis ≤ i := by omega
  simp [round_assignment, this]

theorem round_loop_iff (pf : platform) (ntk : network) (sv todo round : Nat) :
    round_loop pf ntk sv todo round true = true
      ↔ ∀ r, round ≤ r → r < round + todo → simulate_round pf ntk sv r true = true := by
  induction todo generalizing round with
  | zero =>
    simp only [round_loop, true_iff]
    intro r h1 h2
    omega
  | succ todo ih =>
    simp only [round_loop]
    cases hb : simulate_round pf ntk sv round true with
    | false =>
      simp only [Bool.not_false, if_true, Bool.false_eq_true, false_iff]
      intro hall
      have := hall round le_rfl (by omega)
      rw [hb] at this
      exact Bool.false_ne_true this
    | true =>
      simp only [Bool.not_true, Bool.false_eq_true, if_false]
      rw [ih]
      constructor
      · intro hall r h1 h2
        by_cases hr : r = round
        · rw [hr, hb]
        · exact hall r (by omega) (by omega)
      · intro hall r h1 h2
        exact hall r (by omega) (by omega)

/-- The verdict of `run`: it returns, with the selector's statistics, and the
verdict is true exactly when every output is false at every simulated
assignment. -/
theorem run_spec (pf : platform) (ntk : network) (h40 : ntk.num_pis ≤ 40)
    (hwf : ntk.well_formed = true) :
    ∃ b, run pf ntk = exec.done (b, selector pf ntk.num_pis ntk.size)
      ∧ (b = true ↔ ∀ x, simulated pf ntk.num_pis ntk.size x →
          ∀ f ∈ ntk.pos, output_value ntk x f = false) := by
  simp only [run, not_le, if_neg (not_lt.mpr h40)]
  by_cases hr : (selector pf ntk.num_pis ntk.size).rounds = 1
  · rw [if_pos hr]
    refine ⟨_, rfl, ?_⟩
    rw [single_pass_iff ntk hwf]
    simp only [simulated, if_pos hr]
    constructor
    · rintro h x ⟨p, hp, rfl⟩ f hf
      exact h f hf p hp
    · intro h f hf p hp
      exact h _ ⟨p, hp, rfl⟩ f hf
  · rw [if_neg hr]
    refine ⟨_, rfl, ?_⟩
    rw [round_loop_iff]
    simp only [simulated, if_neg hr, simulate_round_iff pf ntk hwf, true_and, Nat.zero_add]
    constructor
    · rintro h x ⟨r, hr, p, hp, rfl⟩ f hf
      exact h r (Nat.zero_le _) hr f hf p hp
    · intro h r _ hr f hf p hp
      exact h _ ⟨r, hr, p, hp, rfl⟩ f hf

/-! ## The miter -/

theorem simulate_gates_append {α : Type} [Inhabited α] (sim : simulator α) (g1 g2 : List gate)
    (idx : Nat) (m : node_map α) :
    simulate_gates sim (g1 ++ g2) idx m
      = simulate_gates sim g2 (idx + g1.length) (simulate_gates sim g1 idx m) := by
  induction g1 generalizing idx m with
  | nil => rfl
  | cons g gs ih =>
    have e : idx + 1 + gs.length = idx + (gs.length + 1) := by omega
    rw [List.cons_append, List.length_cons, ← e]
    simp only [simulate_gates]
    exact ih _ _

theorem simulate_gates_frame {α : Type} [Inhabited α] (sim : simulator α) (gs : List gate)
    (idx : Nat) (m : node_map α) (j : Nat) (hj : j < idx) :
    simulate_gates sim gs idx m j = m j := by
  induction gs generalizing idx m with
  | nil => rfl
  | cons g gs ih =>
    simp only [simulate_gates]
    rw [ih (idx + 1) _ (by omega)]
    have hne : j ≠ idx := by omega
    split
    · rfl
    · simp [node_map.set, hne]

theorem simulate_gates_none {α : Type} [Inhabited α] (sim : simulator α) (gs : List gate)
    (idx : Nat) (m : node_map α) (hm : ∀ j, idx ≤ j → m j = none) (j : Nat)
    (hj : idx + gs.length ≤ j) : simulate_gates sim gs idx m j = none := by
  induction gs generalizing idx m with
  | nil => exact hm j (by simpa using hj)
  | cons g gs ih =>
    simp only [simulate_gates]
    simp only [List.length_cons] at hj
    apply ih (idx + 1)
    · intro k hk
      have hne : k ≠ idx := by omega
      split
      · exact hm k (by omega)
      · simp [node_map.set, hne, hm k (by omega)]
    · omega

theorem simulate_nodes_bool (x : Nat → Bool) (ntk : network) :
    simulate_nodes (bool_simulator x) ntk node_map.empty
      = simulate_gates (bool_simulator x) ntk.gates (ntk.num_pis + 1) (init_map x ntk.num_pis) :=
  rfl

theorem init_map_none (x : Nat → Bool) (n j : Nat) (hj : n + 1 ≤ j) : init_map x n j = none := by
  unfold init_map
  rw [simulate_pis_apply, if_neg (by omega)]
  have hne : j ≠ 0 := by omega
  simp [node_map.has, node_map.empty, node_map.set, hne]

theorem init_map_pi (x : Nat → Bool) (n i : Nat) (hi : i < n) :
    init_map x n (i + 1) = some (x i) := by
  unfold init_map
  rw [simulate_pis_apply, if_pos (by omega)]
  simp [node_map.has, node_map.empty, node_map.set, bool_simulator]

theorem init_map_zero (x : Nat → Bool) (n : Nat) : init_map x n 0 = some false := by
  unfold init_map
  rw [simulate_pis_apply, if_neg (by omega)]
  simp [node_map.has, node_map.empty, node_map.set, bool_simulator]

theorem shift_signal_index (n offset : Nat) (s : signal) :
    (shift_signal n offset s).index = shift_index n offset s.index := by
  unfold shift_signal shift_index
  split <;> rfl

theorem shift_signal_complement (n offset : Nat) (s : signal) :
    (shift_signal n offset s).complement = s.complement := by
  unfold shift_signal
  split <;> rfl

theorem simulate_gates_shift (sim : simulator Bool) (n offset : Nat) (gs : List gate) (idx : Nat)
    (hidx : n + 1 ≤ idx) (mB mM : node_map Bool) (hord : gates_ordered gs idx = true)
    (h : shift_rel n offset mB mM idx) :
    shift_rel n offset (simulate_gates sim gs idx mB)
      (simulate_gates sim (gs.map (shift_gate n offset)) (idx + offset) mM) (idx + gs.length) := by
  induction gs generalizing idx mB mM with
  | nil => simpa [simulate_gates] using h
  | cons g gs ih =>
    simp only [gates_ordered, Bool.and_eq_true, decide_eq_true_eq] at hord
    obtain ⟨hf0, hf1, hrest⟩ := hord
    obtain ⟨hlow, hB, hM⟩ := h
    have hBi := hB idx le_rfl
    have hMi := hM (idx + offset) le_rfl
    have e0 := hlow _ hf0
    have e1 := hlow _ hf1
    simp only [List.map_cons, simulate_gates, node_map.has, hBi, hMi, Option.isSome_none,
      Bool.false_eq_true, if_false]
    have e : idx + (g :: gs).length = idx + 1 + gs.length := by simp; omega
    have e' : idx + offset + 1 = idx + 1 + offset := by omega
    rw [e, e']
    apply ih (idx + 1) (by omega) _ _ hrest
    have hval : compute sim (shift_gate n offset g)
          (mM.get (shift_gate n offset g).fanin0.index) (mM.get (shift_gate n offset g).fanin1.index)
        = compute sim g (mB.get g.fanin0.index) (mB.get g.fanin1.index) := by
      simp only [compute, shift_gate, shift_signal_index, shift_signal_complement, node_map.get,
        e0, e1]
    rw [hval]
    refine ⟨?_, ?_, ?_⟩
    · intro j hj
      by_cases hji : j = idx
      · subst hji
        have hs : shift_index n offset j = j + offset := by
          unfold shift_index
          rw [if_neg (by omega)]
        simp [node_map.set, hs]
      · have hs : shift_index n offset j ≠ idx + offset := by
          unfold shift_index
          split <;> omega
        simp only [node_map.set, if_neg hji, if_neg hs]
        exact hlow j (by omega)
    · intro j hj
      have hji : j ≠ idx := by omega
      simp only [node_map.set, if_neg hji]
      exact hB j (by omega)
    · intro j hj
      have hji : j ≠ idx + offset := by omega
      simp only [node_map.set, if_neg hji]
      exact hM j (by omega)

theorem output_value_eq (ntk : network) (x : Nat → Bool) (f : signal) :
    output_value ntk x f
      = signal_value (simulate_nodes (bool_simulator x) ntk node_map.empty) f := rfl

theorem signal_value_congr (m1 m2 : node_map Bool) (s : signal)
    (h : m1 s.index = m2 s.index) : signal_value m1 s = signal_value m2 s := by
  simp only [signal_value, node_map.get, h]

theorem xor_gates_values (x : Nat → Bool) (m0 : node_map Bool) (idx0 : Nat) (as bs : List signal)
    (idx : Nat) (m : node_map Bool) (hidx : idx0 ≤ idx) (hlow : ∀ j, j < idx0 → m j = m0 j)
    (hnone : ∀ j, idx ≤ j → m j = none) (has : ∀ a ∈ as, a.index < idx0)
    (hbs : ∀ b ∈ bs, b.index < idx0) :
    (List.range (List.zipWith (fun o1 o2 => gate.mk gate_kind.xor_gate o1 o2) as bs).length).map
        (fun j => (simulate_gates (bool_simulator x)
          (List.zipWith (fun o1 o2 => gate.mk gate_kind.xor_gate o1 o2) as bs) idx m).get (idx + j))
      = List.zipWith xor (as.map (signal_value m0)) (bs.map (signal_value m0)) := by
  induction as generalizing bs idx m with
  | nil => simp
  | cons a as ih =>
    cases bs with
    | nil => simp
    | cons b bs =>
      have ha := has a (List.mem_cons_self _ _)
      have hb := hbs b (List.mem_cons_self _ _)
      have hi := hnone idx le_rfl
      simp only [List.zipWith_cons_cons, List.length_cons, List.range_succ_eq_map, List.map_cons,
        List.map_map, simulate_gates, node_map.has, hi, Option.isSome_none, Bool.false_eq_true,
        if_false]
      congr 1
      · simp only [node_map.get, Nat.add_zero]
        rw [simulate_gates_frame _ _ _ _ _ (Nat.lt_succ_self idx)]
        simp only [node_map.set, if_true, Option.getD_some, compute, bool_simulator, signal_value,
          node_map.get, hlow _ ha, hlow _ hb]
      · have hm : ∀ j, j < idx0 → (m.set idx (compute (bool_simulator x)
            (gate.mk gate_kind.xor_gate a b) (m.get a.index) (m.get b.index))) j = m0 j := by
          intro j hj
          have hne : j ≠ idx := by omega
          simp only [node_map.set, if_neg hne]
          exact hlow j hj
        have hn : ∀ j, idx + 1 ≤ j → (m.set idx (compute (bool_simulator x)
            (gate.mk gate_kind.xor_gate a b) (m.get a.index) (m.get b.index))) j = none := by
          intro j hj
          have hne : j ≠ idx := by omega
          simp only [node_map.set, if_neg hne]
          exact hnone j (by omega)
        have := ih bs (idx + 1) _ (by omega) hm hn
          (fun a' ha' => has a' (List.mem_cons_of_mem _ ha'))
          (fun b' hb' => hbs b' (List.mem_cons_of_mem _ hb'))
        rw [← this]
        apply List.map_congr_left
        intro j _
        simp only [Function.comp, Nat.succ_eq_add_one]
        have e : idx + (j + 1) = idx + 1 + j := by omega
        rw [e]

theorem gates_ordered_append (g1 g2 : List gate) (idx : Nat) :
    gates_ordered (g1 ++ g2) idx
      = (gates_ordered g1 idx && gates_ordered g2 (idx + g1.length)) := by
  induction g1 generalizing idx with
  | nil => simp [gates_ordered]
  | cons g gs ih =>
    have e : idx + 1 + gs.length = idx + (gs.length + 1) := by omega
    rw [List.cons_append, List.length_cons, ← e]
    simp only [gates_ordered, ih, Bool.and_assoc]

theorem shift_index_lt (n offset j idx : Nat) (hj : j < idx) :
    shift_index n offset j < idx + offset := by
  unfold shift_index
  split <;> omega

theorem gates_ordered_shift (n offset : Nat) (gs : List gate) (idx : Nat)
    (h : gates_ordered gs idx = true) :
    gates_ordered (gs.map (shift_gate n offset)) (idx + offset) = true := by
  induction gs generalizing idx with
  | nil => rfl
  | cons g gs ih =>
    simp only [gates_ordered, Bool.and_eq_true, decide_eq_true_eq] at h
    obtain ⟨h0, h1, hrest⟩ := h
    have e : idx + offset + 1 = idx + 1 + offset := by omega
    simp only [List.map_cons, gates_ordered, Bool.and_eq_true, decide_eq_true_eq, shift_gate,
      shift_signal_index, e]
    exact ⟨shift_index_lt _ _ _ _ h0, shift_index_lt _ _ _ _ h1, ih _ hrest⟩

theorem gates_ordered_xors (as bs : List signal) (idx0 idx : Nat) (hidx : idx0 ≤ idx)
    (has : ∀ a ∈ as, a.index < idx0) (hbs : ∀ b ∈ bs, b.index < idx0) :
    gates_ordered (List.zipWith (fun o1 o2 => gate.mk gate_kind.xor_gate o1 o2) as bs) idx
      = true := by
  induction as generalizing bs idx with
  | nil => simp [gates_ordered]
  | cons a as ih =>
    cases bs with
    | nil => simp [gates_ordered]
    | cons b bs =>
      have ha := has a (List.mem_cons_self _ _)
      have hb := hbs b (List.mem_cons_self _ _)
      simp only [List.zipWith_cons_cons, gates_ordered, Bool.and_eq_true, decide_eq_true_eq]
      exact ⟨by omega, by omega, ih bs (idx + 1) (by omega)
        (fun a' ha' => has a' (List.mem_cons_of_mem _ ha'))
        (fun b' hb' => hbs b' (List.mem_cons_of_mem _ hb'))⟩

theorem miter_eq_some (ntk1 ntk2 : network) (hn : ntk1.num_pis = ntk2.num_pis)
    (ho : ntk1.num_pos = ntk2.num_pos) : miter ntk1 ntk2 = some (miter_network ntk1 ntk2) := by
  have h : ¬ (ntk1.num_pis ≠ ntk2.num_pis ∨ ntk1.num_pos ≠ ntk2.num_pos) := by
    simp [hn, ho]
  simp only [miter, if_neg h, miter_network]

theorem miter_eq_none (ntk1 ntk2 : network)
    (h : ntk1.num_pis ≠ ntk2.num_pis ∨ ntk1.num_pos ≠ ntk2.num_pos) : miter ntk1 ntk2 = none := by
  simp only [miter, if_pos h]

theorem miter_network_xors_length (ntk1 ntk2 : network) (ho : ntk1.num_pos = ntk2.num_pos) :
    (List.zipWith (fun o1 o2 => gate.mk gate_kind.xor_gate o1 o2) ntk1.pos
        (ntk2.pos.map (shift_signal ntk1.num_pis ntk1.gates.length))).length = ntk1.pos.length := by
  simp only [network.num_pos] at ho
  simp [ho]

theorem miter_network_size (ntk1 ntk2 : network) (ho : ntk1.num_pos = ntk2.num_pos) :
    (miter_network ntk1 ntk2).size
      = 1 + ntk1.num_pis + ntk1.gates.length + ntk2.gates.length + ntk1.pos.length := by
  have h := miter_network_xors_length ntk1 ntk2 ho
  simp only [network.size, miter_network, List.length_append, List.length_map, h]
  omega

theorem miter_network_well_formed (ntk1 ntk2 : network) (h1 : ntk1.well_formed = true)
    (h2 : ntk2.well_formed = true) (hn : ntk1.num_pis = ntk2.num_pis)
    (ho : ntk1.num_pos = ntk2.num_pos) : (miter_network ntk1 ntk2).well_formed = true := by
  obtain ⟨hord1, hpos1⟩ := (well_formed_iff ntk1).1 h1
  obtain ⟨hord2, hpos2⟩ := (well_formed_iff ntk2).1 h2
  rw [well_formed_iff]
  constructor
  · show gates_ordered (ntk1.gates ++ (ntk2.gates.map (shift_gate ntk1.num_pis ntk1.gates.length)
      ++ List.zipWith (fun o1 o2 => gate.mk gate_kind.xor_gate o1 o2) ntk1.pos
          (ntk2.pos.map (shift_signal ntk1.num_pis ntk1.gates.length)))) (ntk1.num_pis + 1) = true
    rw [gates_ordered_append, gates_ordered_append, hord1]
    rw [← hn] at hord2
    rw [gates_ordered_shift _ _ _ _ hord2]
    simp only [Bool.true_and, List.length_map]
    apply gates_ordered_xors _ _ (ntk1.num_pis + 1 + ntk1.gates.length + ntk2.gates.length)
    · exact le_rfl
    · intro a ha
      have := hpos1 a ha
      simp only [network.size] at this
      omega
    · intro b hb
      simp only [List.mem_map] at hb
      obtain ⟨b0, hb0, rfl⟩ := hb
      have := hpos2 b0 hb0
      simp only [network.size] at this
      rw [shift_signal_index]
      have := shift_index_lt ntk1.num_pis ntk1.gates.length b0.index
        (ntk1.num_pis + 1 + ntk2.gates.length) (by omega)
      omega
  · intro f hf
    rw [miter_network_size ntk1 ntk2 ho]
    have hl := miter_network_xors_length ntk1 ntk2 ho
    simp only [miter_network, List.mem_map, List.mem_range, hl] at hf
    obtain ⟨j, hj, rfl⟩ := hf
    simp only
    omega

/-- Every output of the miter is the exclusive or of the corresponding pair of
outputs of the two networks. -/
theorem miter_outputs (ntk1 ntk2 : network) (h1 : ntk1.well_formed = true)
    (h2 : ntk2.well_formed = true) (hn : ntk1.num_pis = ntk2.num_pis) (x : Nat → Bool) :
    outputs (miter_network ntk1 ntk2) x = List.zipWith xor (outputs ntk1 x) (outputs ntk2 x) := by
  obtain ⟨hord1, hpos1⟩ := (well_formed_iff ntk1).1 h1
  obtain ⟨hord2, hpos2⟩ := (well_formed_iff ntk2).1 h2
  rw [← hn] at hord2
  have hsize2 : ntk2.size = ntk1.num_pis + 1 + ntk2.gates.length := by
    simp only [network.size, hn]
    omega
  have hsize1 : ntk1.size = ntk1.num_pis + 1 + ntk1.gates.length := by
    simp only [network.size]
    omega
  -- the map of the first network, then of the miter after the copy of the second
  have hrel0 : shift_rel ntk1.num_pis ntk1.gates.length (init_map x ntk1.num_pis)
      (simulate_gates (bool_simulator x) ntk1.gates (ntk1.num_pis + 1) (init_map x ntk1.num_pis))
      (ntk1.num_pis + 1) := by
    refine ⟨?_, ?_, ?_⟩
    · intro j hj
      have hs : shift_index ntk1.num_pis ntk1.gates.length j = j := by
        unfold shift_index
        rw [if_pos (by omega)]
      rw [hs, simulate_gates_frame _ _ _ _ _ hj]
    · intro j hj
      exact init_map_none x _ j hj
    · intro j hj
      exact simulate_gates_none _ _ _ _ (fun k hk => init_map_none x _ k hk) j hj
  have hrel := simulate_gates_shift (bool_simulator x) ntk1.num_pis ntk1.gates.length ntk2.gates
    (ntk1.num_pis + 1) le_rfl _ _ hord2 hrel0
  obtain ⟨hshift, _, hnone⟩ := hrel
  have hfinal : simulate_nodes (bool_simulator x) (miter_network ntk1 ntk2) node_map.empty
      = simulate_gates (bool_simulator x)
          (List.zipWith (fun o1 o2 => gate.mk gate_kind.xor_gate o1 o2) ntk1.pos
            (ntk2.pos.map (shift_signal ntk1.num_pis ntk1.gates.length)))
          (ntk1.num_pis + 1 + ntk2.gates.length + ntk1.gates.length)
          (simulate_gates (bool_simulator x)
            (ntk2.gates.map (shift_gate ntk1.num_pis ntk1.gates.length))
            (ntk1.num_pis + 1 + ntk1.gates.length)
            (simulate_gates (bool_simulator x) ntk1.gates (ntk1.num_pis + 1)
              (init_map x ntk1.num_pis))) := by
    rw [simulate_nodes_bool]
    show simulate_gates (bool_simulator x) (ntk1.gates ++
      (ntk2.gates.map (shift_gate ntk1.num_pis ntk1.gates.length)
        ++ List.zipWith (fun o1 o2 => gate.mk gate_kind.xor_gate o1 o2) ntk1.pos
            (ntk2.pos.map (shift_signal ntk1.num_pis ntk1.gates.length))))
      (ntk1.num_pis + 1) (init_map x ntk1.num_pis) = _
    rw [simulate_gates_append, simulate_gates_append, List.length_map]
    have e : ntk1.num_pis + 1 + ntk1.gates.length + ntk2.gates.length
        = ntk1.num_pis + 1 + ntk2.gates.length + ntk1.gates.length := by omega
    rw [e]
  have hout : outputs (miter_network ntk1 ntk2) x
      = (List.range (List.zipWith (fun o1 o2 => gate.mk gate_kind.xor_gate o1 o2) ntk1.pos
          (ntk2.pos.map (shift_signal ntk1.num_pis ntk1.gates.length))).length).map
          (fun j => (simulate_gates (bool_simulator x)
            (List.zipWith (fun o1 o2 => gate.mk gate_kind.xor_gate o1 o2) ntk1.pos
              (ntk2.pos.map (shift_signal ntk1.num_pis ntk1.gates.length)))
            (ntk1.num_pis + 1 + ntk2.gates.length + ntk1.gates.length)
            (simulate_gates (bool_simulator x)
              (ntk2.gates.map (shift_gate ntk1.num_pis ntk1.gates.length))
              (ntk1.num_pis + 1 + ntk1.gates.length)
              (simulate_gates (bool_simulator x) ntk1.gates (ntk1.num_pis + 1)
                (init_map x ntk1.num_pis)))).get
            (ntk1.num_pis + 1 + ntk2.gates.length + ntk1.gates.length + j)) := by
    simp only [outputs]
    show List.map _ (List.map _ _) = _
    rw [List.map_map]
    apply List.map_congr_left
    intro j _
    have e : 1 + ntk1.num_pis + ntk1.gates.length + ntk2.gates.length + j
        = ntk1.num_pis + 1 + ntk2.gates.length + ntk1.gates.length + j := by omega
    simp only [Function.comp, e]
    rw [output_value_eq, hfinal]
    simp only [signal_value, Bool.false_eq_true, if_false]
  rw [hout, xor_gates_values x _ (ntk1.num_pis + 1 + ntk2.gates.length + ntk1.gates.length)
    ntk1.pos _ _ _ le_rfl (fun _ _ => rfl) hnone]
  · congr 1
    · apply List.map_congr_left
      intro a ha
      rw [output_value_eq, simulate_nodes_bool]
      apply signal_value_congr
      apply simulate_gates_frame
      have := hpos1 a ha
      omega
    · rw [List.map_map]
      apply List.map_congr_left
      intro b hb
      rw [output_value_eq, simulate_nodes_bool, ← hn]
      have hb2 := hpos2 b hb
      have := hshift b.index (by omega)
      simp only [Function.comp, signal_value, node_map.get, shift_signal_index,
        shift_signal_complement, this]
  · intro a ha
    have := hpos1 a ha
    omega
  · intro b hb
    simp only [List.mem_map] at hb
    obtain ⟨b0, hb0, rfl⟩ := hb
    have := hpos2 b0 hb0
    rw [shift_signal_index]
    have := shift_index_lt ntk1.num_pis ntk1.gates.length b0.index
      (ntk1.num_pis + 1 + ntk2.gates.length) (by omega)
    omega

/-! ## The entry point -/

theorem simulation_cec_wide (pf : platform) (ntk1 ntk2 : network)
    (pst : Option simulation_cec_stats) (h : 40 < ntk1.num_pis) :
    simulation_cec pf ntk1 ntk2 pst = exec.done (none, pst) := by
  simp only [simulation_cec, gt_iff_lt, if_pos h]

theorem miter_num_pis (ntk1 ntk2 ntk_miter : network) (h : miter ntk1 ntk2 = some ntk_miter) :
    ntk_miter.num_pis = ntk1.num_pis := by
  unfold miter at h
  split at h
  · exact absurd h (by simp)
  · simp only [Option.some.injEq] at h
    rw [← h]

/-- With at most 40 inputs `run` returns, and leaves the selector's choice in the
statistics record. -/
theorem run_done (pf : platform) (ntk : network) (h40 : ntk.num_pis ≤ 40) :
    ∃ b, run pf ntk = exec.done (b, selector pf ntk.num_pis ntk.size) := by
  simp only [run, not_le, if_neg (not_lt.mpr h40)]
  split
  · exact ⟨_, rfl⟩
  · exact ⟨_, rfl⟩

theorem forall_outputs_iff (ntk : network) (x : Nat → Bool) :
    (∀ f ∈ ntk.pos, output_value ntk x f = false) ↔ ∀ v ∈ outputs ntk x, v = false := by
  simp [outputs]

/-- The verdict of `simulation_cec` on two networks with matching interfaces and
at most 40 inputs: it is true exactly when no simulated assignment separates a
pair of corresponding outputs. -/
theorem simulation_cec_spec (pf : platform) (ntk1 ntk2 : network)
    (pst : Option simulation_cec_stats) (h1 : ntk1.well_formed = true)
    (h2 : ntk2.well_formed = true) (hn : ntk1.num_pis = ntk2.num_pis)
    (ho : ntk1.num_pos = ntk2.num_pos) (h40 : ntk1.num_pis ≤ 40) :
    ∃ b, simulation_cec pf ntk1 ntk2 pst
        = exec.done (some b, pst.map (fun _ => selector pf ntk1.num_pis
            (1 + ntk1.num_pis + ntk1.gates.length + ntk2.gates.length + ntk1.pos.length)))
      ∧ (b = true ↔ ∀ x, simulated pf ntk1.num_pis
            (1 + ntk1.num_pis + ntk1.gates.length + ntk2.gates.length + ntk1.pos.length) x →
          ∀ v ∈ List.zipWith xor (outputs ntk1 x) (outputs ntk2 x), v = false) := by
  have hwf := miter_network_well_formed ntk1 ntk2 h1 h2 hn ho
  have hsize := miter_network_size ntk1 ntk2 ho
  have hpis : (miter_network ntk1 ntk2).num_pis = ntk1.num_pis := rfl
  obtain ⟨b, hb, hiff⟩ := run_spec pf (miter_network ntk1 ntk2) (by rw [hpis]; exact h40) hwf
  rw [hpis, hsize] at hb hiff
  refine ⟨b, ?_, ?_⟩
  · simp only [simulation_cec, gt_iff_lt, if_neg (not_lt.mpr h40), miter_eq_some ntk1 ntk2 hn ho,
      hb]
  · rw [hiff]
    apply forall_congr'
    intro x
    apply imp_congr_right
    intro _
    rw [forall_outputs_iff, miter_outputs ntk1 ntk2 h1 h2 hn x]

theorem zipWith_xor_self (l : List Bool) : ∀ v ∈ List.zipWith xor l l, v = false := by
  induction l with
  | nil => simp
  | cons a l ih =>
    intro v hv
    simp only [List.zipWith_cons_cons, List.mem_cons] at hv
    rcases hv with hv | hv
    · rw [hv]
      simp
    · exact ih v hv

theorem zipWith_xor_of_ne (l1 l2 : List Bool) (hlen : l1.length = l2.length) (hne : l1 ≠ l2) :
    ∃ v ∈ List.zipWith xor l1 l2, v = true := by
  induction l1 generalizing l2 with
  | nil =>
    cases l2 with
    | nil => exact absurd rfl hne
    | cons b l2 => simp at hlen
  | cons a l1 ih =>
    cases l2 with
    | nil => simp at hlen
    | cons b l2 =>
      simp only [List.length_cons, Nat.add_right_cancel_iff] at hlen
      by_cases hab : a = b
      · subst hab
        have hne2 : l1 ≠ l2 := fun h => hne (by rw [h])
        obtain ⟨v, hv, hvt⟩ := ih l2 hlen hne2
        exact ⟨v, by simp [hv], hvt⟩
      · refine ⟨xor a b, by simp, ?_⟩
        cases a <;> cases b <;> simp at hab ⊢

theorem mem_zipWith_xor_comm (l1 l2 : List Bool) (v : Bool) :
    v ∈ List.zipWith xor l1 l2 ↔ v ∈ List.zipWith xor l2 l1 := by
  rw [List.zipWith_comm_of_comm xor (fun a b => Bool.xor_comm a b) l1 l2]

theorem testBit_of_shr (r k : Nat) : decide (r / 2 ^ k % 2 ≠ 0) = r.testBit k := by
  rw [Nat.testBit_to_div_mod]
  congr 1
  apply propext
  omega

/-- Without overflow of the round count, every assignment of the primary inputs
is simulated. -/
theorem simulated_covers (pf : platform) (n V : Nat)
    (hshift : n - (selector pf n V).split_var < 32) (x : Nat → Bool) :
    ∃ y, simulated pf n V y ∧ ∀ i, i < n → y i = x i := by
  have hle := selector_split_var_le pf n V
  have hrounds : (selector pf n V).rounds = 2 ^ (n - (selector pf n V).split_var) := by
    rw [selector_rounds, shl32_of_lt pf hshift]
  by_cases hr : (selector pf n V).rounds = 1
  · refine ⟨fun i => (of_bits x n).testBit i, ?_, ?_⟩
    · simp only [simulated, if_pos hr]
      exact ⟨of_bits x n, of_bits_lt x n, rfl⟩
    · intro i hi
      simp [of_bits_testBit, hi]
  · refine ⟨round_assignment pf (selector pf n V).split_var
      (of_bits (fun k => x (k + (selector pf n V).split_var)) (n - (selector pf n V).split_var))
      (of_bits x (selector pf n V).split_var), ?_, ?_⟩
    · simp only [simulated, if_neg hr]
      refine ⟨_, ?_, _, ?_, rfl⟩
      · rw [hrounds]
        exact of_bits_lt _ _
      · exact lt_of_lt_of_le (of_bits_lt _ _) (Nat.pow_le_pow_right (by norm_num) hle)
    · intro i hi
      simp only [round_assignment]
      by_cases hsv : (selector pf n V).split_var ≤ i
      · rw [if_pos hsv]
        have hk : i - (selector pf n V).split_var < 32 := by omega
        simp only [shr32, if_pos hk]
        rw [testBit_of_shr, of_bits_testBit]
        have h1 : i - (selector pf n V).split_var < n - (selector pf n V).split_var := by omega
        have h2 : i - (selector pf n V).split_var + (selector pf n V).split_var = i := by omega
        simp [h1, h2]
      · rw [if_neg hsv, of_bits_testBit]
        have h1 : i < (selector pf n V).split_var := by omega
        simp [h1]

theorem outputs_congr (ntk : network) (x y : Nat → Bool)
    (h : ∀ i, i < ntk.num_pis → x i = y i) : outputs ntk x = outputs ntk y := by
  simp only [outputs]
  apply List.map_congr_left
  intro f _
  exact output_value_congr ntk x y h f

/-- Completeness of the check when the round count does not overflow: two
networks that differ at some input assignment are reported as not equivalent. -/
theorem simulation_cec_complete (pf : platform) (ntk1 ntk2 : network)
    (pst : Option simulation_cec_stats) (h1 : ntk1.well_formed = true)
    (h2 : ntk2.well_formed = true) (hn : ntk1.num_pis = ntk2.num_pis)
    (ho : ntk1.num_pos = ntk2.num_pos) (h40 : ntk1.num_pis ≤ 40)
    (hshift : ntk1.num_pis - (selector pf ntk1.num_pis
      (1 + ntk1.num_pis + ntk1.gates.length + ntk2.gates.length + ntk1.pos.length)).split_var < 32)
    (x : Nat → Bool) (hdiff : outputs ntk1 x ≠ outputs ntk2 x) :
    simulation_cec pf ntk1 ntk2 pst
      = exec.done (some false, pst.map (fun _ => selector pf ntk1.num_pis
          (1 + ntk1.num_pis + ntk1.gates.length + ntk2.gates.length + ntk1.pos.length))) := by
  obtain ⟨b, hb, hiff⟩ := simulation_cec_spec pf ntk1 ntk2 pst h1 h2 hn ho h40
  obtain ⟨y, hy, hxy⟩ := simulated_covers pf ntk1.num_pis _ hshift x
  have hb' : b = false := by
    cases b with
    | false => rfl
    | true =>
      exfalso
      have hall := hiff.1 rfl y hy
      have e1 := outputs_congr ntk1 y x hxy
      have e2 := outputs_congr ntk2 y x (fun i hi => hxy i (by rw [hn]; exact hi))
      rw [e1, e2] at hall
      have hlen : (outputs ntk1 x).length = (outputs ntk2 x).length := by
        simp only [outputs, List.length_map]
        exact ho
      obtain ⟨v, hv, hvt⟩ := zipWith_xor_of_ne _ _ hlen hdiff
      rw [hall v hv] at hvt
      exact Bool.false_ne_true hvt
  rw [hb, hb']

/-! ## A deep network -/

theorem chain_gate_fanins (k : Nat) :
    (chain_gate k).fanin0.index < 41 + k ∧ (chain_gate k).fanin1.index < 41 + k := by
  unfold chain_gate
  split
  · constructor
    · simp only
      omega
    · simp only
      omega
  · constructor
    · simp only
      omega
    · simp only
      omega

theorem chain_ordered (len : Nat) :
    gates_ordered ((List.range len).map chain_gate) 41 = true := by
  induction len with
  | zero => rfl
  | succ len ih =>
    rw [List.range_succ, List.map_append, gates_ordered_append, ih]
    have h := chain_gate_fanins len
    simp only [List.map_cons, List.map_nil, List.length_map, List.length_range, gates_ordered,
      Bool.and_true, Bool.true_and, Bool.and_eq_true, decide_eq_true_eq]
    exact h

theorem chain_well_formed (len : Nat) :
    (chain_network len).well_formed = true := by
  rw [well_formed_iff]
  constructor
  · exact chain_ordered len
  · intro f hf
    simp only [chain_network, List.mem_singleton] at hf
    subst hf
    simp only [network.size, chain_network, List.length_map, List.length_range]
    omega

theorem zero_well_formed : zero_network.well_formed = true := by
  decide

theorem chain_value (x : Nat → Bool) (len : Nat) :
    simulate_gates (bool_simulator x) ((List.range (len + 1)).map chain_gate) 41 (init_map x 40)
      (41 + len) = some (x 8 && x 0) := by
  induction len with
  | zero =>
    have h9 : init_map x 40 9 = some (x 8) := init_map_pi x 40 8 (by norm_num)
    have h1 : init_map x 40 1 = some (x 0) := init_map_pi x 40 0 (by norm_num)
    have h41 : init_map x 40 41 = none := init_map_none x 40 41 (by norm_num)
    simp [simulate_gates, chain_gate, node_map.has, node_map.get, node_map.set, compute,
      bool_simulator, h9, h1, h41]
  | succ len ih =>
    rw [List.range_succ, List.map_append, simulate_gates_append]
    have hnone : simulate_gates (bool_simulator x) ((List.range (len + 1)).map chain_gate) 41
        (init_map x 40) (41 + (len + 1)) = none := by
      apply simulate_gates_none _ _ _ _ (fun k hk => init_map_none x 40 k (by omega))
      simp
    have h1 : simulate_gates (bool_simulator x) ((List.range (len + 1)).map chain_gate) 41
        (init_map x 40) 1 = some (x 0) := by
      rw [simulate_gates_frame _ _ _ _ _ (by norm_num)]
      exact init_map_pi x 40 0 (by norm_num)
    have e : 40 + (len + 1) = 41 + len := by omega
    have hk : ¬ (len + 1 = 0) := by omega
    simp only [List.map_cons, List.map_nil, List.length_map, List.length_range, simulate_gates,
      node_map.has, hnone, Option.isSome_none, Bool.false_eq_true, if_false, node_map.set, if_true,
      chain_gate, if_neg hk, compute, node_map.get, e, ih, h1, Option.getD_some]
    simp only [bool_simulator]
    cases x 8 <;> cases x 0 <;> rfl

theorem chain_outputs (x : Nat → Bool) (len : Nat) :
    outputs (chain_network (len + 1)) x = [x 8 && x 0] := by
  have e : 40 + (len + 1) = 41 + len := by omega
  have h := chain_value x len
  simp only [outputs, chain_network, List.map_cons, List.map_nil, output_value_eq,
    simulate_nodes_bool, signal_value, node_map.get, e, Bool.false_eq_true, if_false]
  rw [show (40 + 1 : Nat) = 41 from rfl, h]
  rfl

theorem zero_outputs (x : Nat → Bool) : outputs zero_network x = [false] := by
  simp only [outputs, zero_network, List.map_cons, List.map_nil, output_value_eq,
    simulate_nodes_bool, signal_value, node_map.get, simulate_gates, init_map_zero,
    Option.getD_some, Bool.false_eq_true, if_false]

theorem chain_cec (pf : platform) (len : Nat) (pst : Option simulation_cec_stats) :
    ∃ b, simulation_cec pf (chain_network (len + 1)) zero_network pst
        = exec.done (some b, pst.map (fun _ => selector pf 40 (len + 43)))
      ∧ (b = true ↔ ∀ x, simulated pf 40 (len + 43) x → (x 8 && x 0) = false) := by
  obtain ⟨b, hb, hiff⟩ := simulation_cec_spec pf (chain_network (len + 1)) zero_network pst
    (chain_well_formed _) zero_well_formed rfl rfl (Nat.le_refl 40)
  have hsz : 1 + (chain_network (len + 1)).num_pis + (chain_network (len + 1)).gates.length
      + zero_network.gates.length + (chain_network (len + 1)).pos.length = len + 43 := by
    simp only [chain_network, zero_network, List.length_map, List.length_range, List.length_nil,
      List.length_cons]
    omega
  have hp : (chain_network (len + 1)).num_pis = 40 := rfl
  rw [hsz, hp] at hb hiff
  refine ⟨b, hb, ?_⟩
  · rw [hiff]
    apply forall_congr'
    intro x
    apply imp_congr_right
    intro _
    rw [chain_outputs, zero_outputs]
    simp

theorem selector_40_8388650 (pf : platform) :
    selector pf 40 8388650 = { split_var := 7, rounds := pf.shl_wide 1 33 % 2 ^ 32 } := by
  simp [selector, selector_tmp_8388650, shl32]

/-- C1 at its failing input: a chain of 8388608 AND gates computing `x8 AND x0`
over 40 inputs against the constant-false network. The two are well formed, have
the same interface and differ at the assignment `x0 = x8 = 1`; the miter has
8388650 nodes, the selector picks `split_var = 7` and `rounds = 1u << 33`, and the
call returns `true` both where shift counts are masked and where the bit is
shifted out. -/
theorem missed_difference :
    (chain_network 8388608).well_formed = true ∧ zero_network.well_formed = true
      ∧ (chain_network 8388608).num_pis = 40 ∧ zero_network.num_pis = 40
      ∧ (chain_network 8388608).num_pos = zero_network.num_pos
      ∧ outputs (chain_network 8388608) (fun i => decide (i = 0 ∨ i = 8))
          ≠ outputs zero_network (fun i => decide (i = 0 ∨ i = 8))
      ∧ simulation_cec masking_platform (chain_network 8388608) zero_network none
          = exec.done (some true, none)
      ∧ simulation_cec truncating_platform (chain_network 8388608) zero_network none
          = exec.done (some true, none) := by
  refine ⟨chain_well_formed _, zero_well_formed, rfl, rfl, ?_, ?_, ?_, ?_⟩
  · simp only [network.num_pos, chain_network, zero_network, List.length_singleton]
  · rw [chain_outputs _ 8388607, zero_outputs]
    simp
  · obtain ⟨b, hb, hiff⟩ := chain_cec masking_platform 8388607 none
    have hb' : b = true := by
      rw [hiff]
      intro x hx
      have hsel := selector_40_8388650 masking_platform
      have hr : (selector masking_platform 40 8388650).rounds = 2 := by
        rw [hsel]
        simp [masking_platform]
      simp only [simulated, Nat.reduceAdd, hr, OfNat.ofNat_ne_one, if_false] at hx
      obtain ⟨r, hr2, p, _, rfl⟩ := hx
      have hsv : (selector masking_platform 40 8388650).split_var = 7 := by rw [hsel]
      have h8 : round_assignment masking_platform 7 r p 8 = false := by
        have hdiv : r / 2 % 2 = 0 := by omega
        simp [round_assignment, shr32, hdiv]
      rw [hsv, h8]
      rfl
    rw [hb, hb']
    rfl
  · obtain ⟨b, hb, hiff⟩ := chain_cec truncating_platform 8388607 none
    have hb' : b = true := by
      rw [hiff]
      intro x hx
      have hsel := selector_40_8388650 truncating_platform
      have hr : (selector truncating_platform 40 8388650).rounds = 0 := by
        rw [hsel]
        simp [truncating_platform]
      simp only [simulated, Nat.reduceAdd, hr, zero_ne_one, if_false, not_lt_zero',
        false_and, exists_false] at hx
    rw [hb, hb']
    rfl

theorem maj3_outputs (x : Nat → Bool) : outputs maj3_xor x = outputs maj3_and x := by
  simp only [outputs, maj3_xor, maj3_and, List.map_cons, List.map_nil, output_value_eq,
    simulate_nodes_bool, signal_value]
  have h1 : init_map x 3 1 = some (x 0) := init_map_pi x 3 0 (by norm_num)
  have h2 : init_map x 3 2 = some (x 1) := init_map_pi x 3 1 (by norm_num)
  have h3 : init_map x 3 3 = some (x 2) := init_map_pi x 3 2 (by norm_num)
  have h4 : init_map x 3 4 = none := init_map_none x 3 4 (by norm_num)
  have h5 : init_map x 3 5 = none := init_map_none x 3 5 (by norm_num)
  have h6 : init_map x 3 6 = none := init_map_none x 3 6 (by norm_num)
  have h7 : init_map x 3 7 = none := init_map_none x 3 7 (by norm_num)
  simp [simulate_gates, node_map.has, node_map.get, node_map.set, compute, bool_simulator,
    h1, h2, h3, h4, h5, h6, h7]
  cases x 0 <;> cases x 1 <;> cases x 2 <;> rfl

/-! ## The claims -/

/-- The scenario of the specification: `AND(x0, x1)` against `OR(x0, x1)` is
reported as not equivalent, with one round over both inputs. -/
theorem and2_or2_not_equivalent :
    simulation_cec masking_platform and2 or2 (some {})
      = exec.done (some false, some { split_var := 2, rounds := 1 }) := by
  decide

/-- C2: two well-formed networks with the same number of primary inputs (at most
40) and of outputs whose outputs agree at every input assignment are reported
as equivalent, on every platform and for every node count of the miter. -/
theorem equivalent_networks_verdict (pf : platform) (ntk1 ntk2 : network)
    (pst : Option simulation_cec_stats) (h1 : ntk1.well_formed = true)
    (h2 : ntk2.well_formed = true) (hn : ntk1.num_pis = ntk2.num_pis)
    (ho : ntk1.num_pos = ntk2.num_pos) (h40 : ntk1.num_pis ≤ 40)
    (heq : ∀ x, outputs ntk1 x = outputs ntk2 x) :
    simulation_cec pf ntk1 ntk2 pst
      = exec.done (some true, pst.map (fun _ => selector pf ntk1.num_pis
          (1 + ntk1.num_pis + ntk1.gates.length + ntk2.gates.length + ntk1.pos.length))) := by
  obtain ⟨b, hb, hiff⟩ := simulation_cec_spec pf ntk1 ntk2 pst h1 h2 hn ho h40
  have hb' : b = true := by
    rw [hiff]
    intro x _ v hv
    rw [heq x] at hv
    exact zipWith_xor_self _ v hv
  rw [hb, hb']

theorem equivalent_networks_verdict_witness :
    maj3_xor.well_formed = true ∧ maj3_and.well_formed = true
      ∧ maj3_xor.num_pis = maj3_and.num_pis ∧ maj3_xor.num_pos = maj3_and.num_pos
      ∧ maj3_xor.num_pis ≤ 40 ∧ (∀ x, outputs maj3_xor x = outputs maj3_and x)
      ∧ simulation_cec masking_platform maj3_xor maj3_and (some {})
          = exec.done (some true, some { split_var := 3, rounds := 1 }) :=
  ⟨by decide, by decide, rfl, rfl, by decide, maj3_outputs,
    equivalent_networks_verdict masking_platform maj3_xor maj3_and (some {}) (by decide)
      (by decide) rfl rfl (by decide) maj3_outputs⟩

/-- C3, as the code has it: when the first network has more than 40 primary
inputs the call returns `nullopt` at once, whatever the second network, the
platform and the caller's record, which is left unchanged. -/
theorem first_network_guard (pf : platform) (ntk1 ntk2 : network)
    (pst : Option simulation_cec_stats) (h : 40 < ntk1.num_pis) :
    simulation_cec pf ntk1 ntk2 pst = exec.done (none, pst) :=
  simulation_cec_wide pf ntk1 ntk2 pst h

theorem first_network_guard_witness :
    40 < wide41.num_pis
      ∧ simulation_cec masking_platform wide41 and2 (some { split_var := 5, rounds := 7 })
          = exec.done (none, some { split_var := 5, rounds := 7 }) :=
  ⟨by decide, first_network_guard masking_platform wide41 and2 _ (by decide)⟩

/-- C3 fails for the second network: with 2 inputs in the first network and 41
in the second the call returns the boolean `false`, not `nullopt`. -/
theorem second_network_unguarded :
    40 < wide41.num_pis
      ∧ simulation_cec masking_platform and2 wide41 none = exec.done (some false, none) := by
  decide

/-- C4, as the code has it: for well-formed networks of which either both or
neither has more than 40 primary inputs, the call returns the same verdict, and
leaves the same statistics, in both argument orders. -/
theorem symmetric_verdict (pf : platform) (ntk1 ntk2 : network)
    (pst : Option simulation_cec_stats) (h1 : ntk1.well_formed = true)
    (h2 : ntk2.well_formed = true) (h : 40 < ntk1.num_pis ↔ 40 < ntk2.num_pis) :
    simulation_cec pf ntk1 ntk2 pst = simulation_cec pf ntk2 ntk1 pst := by
  by_cases hw : 40 < ntk1.num_pis
  · rw [simulation_cec_wide pf ntk1 ntk2 pst hw, simulation_cec_wide pf ntk2 ntk1 pst (h.1 hw)]
  · have hw2 : ¬ 40 < ntk2.num_pis := fun h' => hw (h.2 h')
    by_cases hm : ntk1.num_pis ≠ ntk2.num_pis ∨ ntk1.num_pos ≠ ntk2.num_pos
    · have hm' : ntk2.num_pis ≠ ntk1.num_pis ∨ ntk2.num_pos ≠ ntk1.num_pos := by
        rcases hm with hm | hm
        · exact Or.inl (Ne.symm hm)
        · exact Or.inr (Ne.symm hm)
      simp only [simulation_cec, gt_iff_lt, if_neg hw, if_neg hw2, miter_eq_none _ _ hm,
        miter_eq_none _ _ hm']
    · simp only [not_or, not_not] at hm
      obtain ⟨hn, ho⟩ := hm
      obtain ⟨b, hb, hiff⟩ := simulation_cec_spec pf ntk1 ntk2 pst h1 h2 hn ho (by omega)
      obtain ⟨c, hc, hiff'⟩ := simulation_cec_spec pf ntk2 ntk1 pst h2 h1 hn.symm ho.symm
        (by omega)
      have hpos : ntk1.pos.length = ntk2.pos.length := ho
      have hsz : 1 + ntk2.num_pis + ntk2.gates.length + ntk1.gates.length + ntk2.pos.length
          = 1 + ntk1.num_pis + ntk1.gates.length + ntk2.gates.length + ntk1.pos.length := by
        omega
      rw [hsz, ← hn] at hc hiff'
      have hbc : b = c := by
        rw [Bool.eq_iff_iff, hiff, hiff']
        apply forall_congr'
        intro x
        apply imp_congr_right
        intro _
        apply forall_congr'
        intro v
        rw [mem_zipWith_xor_comm]
      rw [hb, hc, hbc]

theorem symmetric_verdict_witness :
    and2.well_formed = true ∧ or2.well_formed = true
      ∧ (40 < and2.num_pis ↔ 40 < or2.num_pis)
      ∧ simulation_cec masking_platform and2 or2 none
          = simulation_cec masking_platform or2 and2 none :=
  ⟨by decide, by decide, by decide,
    symmetric_verdict masking_platform and2 or2 none (by decide) (by decide) (by decide)⟩

/-- C4 fails when only one network has more than 40 inputs: with the wide
network first the call returns `nullopt`, with the wide network second it
returns `false`. -/
theorem asymmetric_guard :
    simulation_cec masking_platform wide41 and2 none = exec.done (none, none)
      ∧ simulation_cec masking_platform and2 wide41 none = exec.done (some false, none)
      ∧ simulation_cec masking_platform wide41 and2 none
          ≠ simulation_cec masking_platform and2 wide41 none := by
  decide

/-- C5, as the code has it: when the first network has at most 40 inputs and
miter construction fails, the call runs no simulation (its result is the same on
every platform) and returns the boolean `false`, with the default statistics
written to the caller's record. -/
theorem miter_failure_returns_false (pf : platform) (ntk1 ntk2 : network)
    (pst : Option simulation_cec_stats) (h40 : ntk1.num_pis ≤ 40)
    (hm : miter ntk1 ntk2 = none) :
    simulation_cec pf ntk1 ntk2 pst
      = exec.done (some false, pst.map (fun _ => { split_var := 0, rounds := 0 })) := by
  simp only [simulation_cec, gt_iff_lt, if_neg (not_lt.mpr h40), hm]

theorem miter_failure_returns_false_witness :
    and2.num_pis ≤ 40 ∧ miter and2 buffer3 = none
      ∧ simulation_cec truncating_platform and2 buffer3 none = exec.done (some false, none) :=
  ⟨by decide, by decide,
    miter_failure_returns_false truncating_platform and2 buffer3 none (by decide) (by decide)⟩

/-- C5 fails: a failed miter is reported as the verdict `false`. -/
theorem failed_miter_verdict :
    miter and2 buffer3 = none
      ∧ simulation_cec masking_platform and2 buffer3 none = exec.done (some false, none) := by
  decide

/-- C6, as the code has it: in a call that runs no simulation the caller's record
is left as it was when the first network has more than 40 inputs, and is
overwritten with the default statistics when the miter cannot be built. -/
theorem stats_without_simulation (pf : platform) (ntk1 ntk2 : network)
    (s0 : simulation_cec_stats) (h : 40 < ntk1.num_pis ∨ miter ntk1 ntk2 = none) :
    ∃ verdict, simulation_cec pf ntk1 ntk2 (some s0)
      = exec.done (verdict,
          some (if 40 < ntk1.num_pis then s0 else { split_var := 0, rounds := 0 })) := by
  by_cases hw : 40 < ntk1.num_pis
  · exact ⟨none, by rw [simulation_cec_wide pf ntk1 ntk2 _ hw, if_pos hw]⟩
  · rcases h with h | h
    · exact absurd h hw
    · refine ⟨some false, ?_⟩
      simp only [simulation_cec, gt_iff_lt, if_neg hw, h, Option.map_some']

theorem stats_without_simulation_witness :
    (40 < and2.num_pis ∨ miter and2 buffer3 = none)
      ∧ ∃ verdict, simulation_cec masking_platform and2 buffer3
          (some { split_var := 5, rounds := 7 })
        = exec.done (verdict, some (if 40 < and2.num_pis then { split_var := 5, rounds := 7 }
            else { split_var := 0, rounds := 0 })) :=
  ⟨by decide, stats_without_simulation masking_platform and2 buffer3 _ (by decide)⟩

/-- C6 fails when the miter cannot be built: the caller's record `{5, 7}` comes
back as `{0, 0}` although no simulation was run. -/
theorem stats_overwritten :
    miter and2 buffer3 = none
      ∧ simulation_cec masking_platform and2 buffer3 (some { split_var := 5, rounds := 7 })
          = exec.done (some false, some { split_var := 0, rounds := 0 }) := by
  decide

/-- C7: when the guard is passed, the miter is built and the selector runs (the
assertion of `run` holds), the record returned to the caller holds exactly the
selector's `split_var` and `rounds` for the miter's input count and node count,
whatever the verdict, the platform and the record's previous content. -/
theorem stats_are_selector_choice (pf : platform) (ntk1 ntk2 ntk_miter : network)
    (s0 : simulation_cec_stats) (h40 : ntk1.num_pis ≤ 40)
    (hm : miter ntk1 ntk2 = some ntk_miter) (hsel : ntk_miter.num_pis ≤ 40) :
    ∃ verdict, simulation_cec pf ntk1 ntk2 (some s0)
      = exec.done (some verdict, some (selector pf ntk_miter.num_pis ntk_miter.size)) := by
  obtain ⟨b, hb⟩ := run_done pf ntk_miter hsel
  refine ⟨b, ?_⟩
  simp only [simulation_cec, gt_iff_lt, if_neg (not_lt.mpr h40), hm, hb, Option.map_some']

theorem stats_are_selector_choice_witness :
    and2.num_pis ≤ 40 ∧ miter and2 or2 = some (miter_network and2 or2)
      ∧ (miter_network and2 or2).num_pis ≤ 40
      ∧ ∃ verdict, simulation_cec masking_platform and2 or2 (some { split_var := 5, rounds := 7 })
        = exec.done (some verdict, some (selector masking_platform
            (miter_network and2 or2).num_pis (miter_network and2 or2).size)) :=
  ⟨by decide, by decide, by decide,
    stats_are_selector_choice masking_platform and2 or2 (miter_network and2 or2) _ (by decide)
      (by decide) (by decide)⟩

/-- C8: with at most 6 inputs the selector chooses `split_var = num_inputs` and
`rounds = 1` for every node count and platform, and `run` takes the single-pass
branch: one simulation from the empty pattern map, no input being fixed. -/
theorem selector_small_inputs (pf : platform) (n V : Nat) (hn : n ≤ 6) :
    selector pf n V = { split_var := n, rounds := 1 }
      ∧ ∀ ntk : network, ntk.num_pis = n →
          run pf ntk = exec.done
            (check_pos ntk (simulate_nodes (default_simulator n) ntk node_map.empty) true,
              { split_var := n, rounds := 1 }) := by
  refine ⟨selector_small pf n V hn, ?_⟩
  intro ntk hntk
  subst hntk
  have h40 : ntk.num_pis ≤ 40 := by omega
  simp only [run, not_le, if_neg (not_lt.mpr h40), selector_small pf _ _ hn, if_true]

theorem selector_small_inputs_witness :
    (3 : Nat) ≤ 6
      ∧ selector masking_platform 3 11 = { split_var := 3, rounds := 1 }
      ∧ ∀ ntk : network, ntk.num_pis = 3 →
          run masking_platform ntk = exec.done
            (check_pos ntk (simulate_nodes (default_simulator 3) ntk node_map.empty) true,
              { split_var := 3, rounds := 1 }) :=
  ⟨by decide, selector_small_inputs masking_platform 3 11 (by decide)⟩

/-- C9 at its failing input, the chain of 8388566 AND gates over 40 inputs against
the constant-false network, whose miter has 8388608 nodes: the selector chooses
`split_var = 8`, and the 32-bit `rounds` it stores and reports is below
`2 ^ (40 - 8)` on every platform; it is 1 where shift counts are masked and 0,
neither a power of two nor at least 1, where the bit is shifted out. -/
theorem rounds_overflow (pf : platform) :
    (∃ verdict, simulation_cec pf (chain_network 8388566) zero_network (some {})
        = exec.done (some verdict, some (selector pf 40 8388608)))
      ∧ (selector pf 40 8388608).split_var = 8
      ∧ (selector pf 40 8388608).rounds < 2 ^ (40 - (selector pf 40 8388608).split_var)
      ∧ (selector masking_platform 40 8388608).rounds = 1
      ∧ (selector truncating_platform 40 8388608).rounds = 0 := by
  have hsv : ∀ q : platform, (selector q 40 8388608).split_var = 8 := selector_40_8388608
  refine ⟨?_, hsv pf, ?_, ?_, ?_⟩
  · obtain ⟨b, hb, _⟩ := chain_cec pf 8388565 (some {})
    exact ⟨b, hb⟩
  · rw [hsv pf, selector_rounds]
    exact shl32_lt pf _ _
  · rw [selector_rounds, hsv]
    simp [shl32, masking_platform]
  · rw [selector_rounds, hsv]
    simp [shl32, truncating_platform]

/-- C10 at its failing input, the chain of 8388566 AND gates over 40 inputs
against the constant-false network (a miter of 8388608 nodes), on a platform
that masks shift counts: the statistics after the run are `split_var = 8` and
`rounds = 1`, so `rounds == 1` although `split_var` is not 40. -/
theorem single_pass_with_fixed_inputs :
    (∃ verdict, simulation_cec masking_platform (chain_network 8388566) zero_network (some {})
        = exec.done (some verdict, some { split_var := 8, rounds := 1 }))
      ∧ (selector masking_platform 40 8388608).rounds = 1
      ∧ (selector masking_platform 40 8388608).split_var = 8
      ∧ (selector masking_platform 40 8388608).split_var ≠ 40 := by
  have hsv := selector_40_8388608 masking_platform
  have hr : (selector masking_platform 40 8388608).rounds = 1 := by
    rw [selector_rounds, hsv]
    simp [shl32, masking_platform]
  refine ⟨?_, hr, hsv, by rw [hsv]; decide⟩
  obtain ⟨b, hb, _⟩ := chain_cec masking_platform 8388565 (some {})
  refine ⟨b, ?_⟩
  rw [hb]
  have hst : selector masking_platform 40 (8388565 + 43) = { split_var := 8, rounds := 1 } := by
    have e : selector masking_platform 40 (8388565 + 43)
        = { split_var := (selector masking_platform 40 8388608).split_var,
            rounds := (selector masking_platform 40 8388608).rounds } := rfl
    rw [e, hsv, hr]
  rw [Option.map_some', hst]

/-- Without overflow of the shift, `rounds` is the power of two
`2 ^ (num_inputs - split_var)`, and it is 1 exactly when no input is fixed. -/
theorem selector_rounds_of_lt (pf : platform) (n V : Nat)
    (h : n - (selector pf n V).split_var < 32) :
    (selector pf n V).rounds = 2 ^ (n - (selector pf n V).split_var)
      ∧ ((selector pf n V).rounds = 1 ↔ (selector pf n V).split_var = n) := by
  have hle := selector_split_var_le pf n V
  have hr : (selector pf n V).rounds = 2 ^ (n - (selector pf n V).split_var) := by
    rw [selector_rounds, shl32_of_lt pf h]
  refine ⟨hr, ?_⟩
  rw [hr]
  constructor
  · intro h1
    have : n - (selector pf n V).split_var = 0 := by
      by_contra hne
      have : 2 ^ 1 ≤ 2 ^ (n - (selector pf n V).split_var) :=
        Nat.pow_le_pow_right (by norm_num) (by omega)
      omega
    omega
  · intro h1
    rw [h1]
    simp

/-! ## The claims on the driver, the loop and the selector -/

theorem check_po_eq (patterns : node_map dynamic_truth_table) (result : Bool) (f : signal) :
    check_po patterns result f
      = (result && decide (∀ w ∈ (if f.complement then tt_not (patterns.get f.index)
          else patterns.get f.index).words, w = 0)) := by
  simp only [check_po, check_words_foldl]

theorem check_pos_foldl_iff (patterns : node_map dynamic_truth_table) (fs : List signal)
    (result : Bool) :
    fs.foldl (check_po patterns) result = true
      ↔ result = true ∧ ∀ f ∈ fs, ∀ w ∈ (if f.complement then tt_not (patterns.get f.index)
          else patterns.get f.index).words, w = 0 := by
  induction fs generalizing result with
  | nil => simp
  | cons f fs ih =>
    rw [List.foldl_cons, ih, check_po_eq]
    simp only [Bool.and_eq_true, decide_eq_true_eq, List.mem_cons, forall_eq_or_imp]
    tauto

theorem set_bit_word (t : dynamic_truth_table) (p : Nat) (hp : p < 2 ^ t.num_vars)
    (hbit : t.table.testBit p = true) : ∃ w ∈ t.words, w ≠ 0 := by
  have hj : p / 64 < num_words t.num_vars := by
    have := num_words_bound t.num_vars
    omega
  refine ⟨t.table / 2 ^ (64 * (p / 64)) % 2 ^ 64, ?_, ?_⟩
  · simp only [dynamic_truth_table.words, List.mem_map, List.mem_range]
    exact ⟨p / 64, hj, rfl⟩
  · intro hz
    have hb := word_testBit t.table (p / 64) (p % 64) (Nat.mod_lt _ (by norm_num))
    rw [hz, Nat.zero_testBit, Nat.div_add_mod, hbit] at hb
    exact Bool.false_ne_true hb

/-- C16: the output check of a round reports it consistent exactly when, for
every primary output, every word of the table of the output's node, complemented
when the output is inverted, is zero; a bit set at any position of any output
makes the check fail. The single-pass branch of `run` and every round of the
multi-round branch decide by this same check. -/
theorem driver_verdict (ntk : network) (patterns : node_map dynamic_truth_table) (result : Bool) :
    (check_pos ntk patterns result = true
        ↔ result = true ∧ ∀ f ∈ ntk.pos,
            ∀ w ∈ (if f.complement then tt_not (patterns.get f.index)
              else patterns.get f.index).words, w = 0)
      ∧ (∀ f ∈ ntk.pos, ∀ p,
          p < 2 ^ (if f.complement then tt_not (patterns.get f.index)
            else patterns.get f.index).num_vars →
          (if f.complement then tt_not (patterns.get f.index)
            else patterns.get f.index).table.testBit p = true →
          check_pos ntk patterns result = false)
      ∧ (∀ pf : platform, ntk.num_pis ≤ 40 → (selector pf ntk.num_pis ntk.size).rounds = 1 →
          run pf ntk = exec.done
            (check_pos ntk (simulate_nodes (default_simulator ntk.num_pis) ntk node_map.empty) true,
              selector pf ntk.num_pis ntk.size))
      ∧ (∀ (pf : platform) (split_var round : Nat),
          simulate_round pf ntk split_var round result
            = check_pos ntk (simulate_nodes (default_simulator ntk.num_pis) ntk
                (update_patterns pf ntk.num_pis split_var round ntk.num_pis node_map.empty))
              result) := by
  have hiff := check_pos_foldl_iff patterns ntk.pos result
  refine ⟨hiff, ?_, ?_, ?_⟩
  · intro f hf p hp hbit
    obtain ⟨w, hw, hne⟩ := set_bit_word _ p hp hbit
    cases hc : check_pos ntk patterns result with
    | false => rfl
    | true =>
      have h := (hiff.1 hc).2 f hf w hw
      exact absurd h hne
  · intro pf h40 hr
    simp only [run, not_le, if_neg (not_lt.mpr h40), hr, if_true]
  · intro pf split_var round
    rfl

/-- C18: the assertion of `run` cannot fail inside `simulation_cec`: a built
miter has the input count of the first network, which the guard has bounded by
40, so every call returns. -/
theorem assertion_unreachable (pf : platform) (ntk1 ntk2 : network)
    (pst : Option simulation_cec_stats) :
    (∀ ntk_miter, miter ntk1 ntk2 = some ntk_miter → ntk_miter.num_pis = ntk1.num_pis)
      ∧ (∀ ntk_miter : network, ntk_miter.num_pis = ntk1.num_pis → ¬ ntk1.num_pis > 40 →
          run pf ntk_miter ≠ exec.assert_fail)
      ∧ simulation_cec pf ntk1 ntk2 pst ≠ exec.assert_fail := by
  refine ⟨fun m hm => miter_num_pis ntk1 ntk2 m hm, ?_, ?_⟩
  · intro m hm hg
    obtain ⟨b, hb⟩ := run_done pf m (by omega)
    rw [hb]
    exact fun h => exec.noConfusion h
  · by_cases hw : 40 < ntk1.num_pis
    · rw [simulation_cec_wide pf ntk1 ntk2 pst hw]
      exact fun h => exec.noConfusion h
    · cases hm : miter ntk1 ntk2 with
      | none =>
        simp only [simulation_cec, gt_iff_lt, if_neg hw, hm]
        exact fun h => exec.noConfusion h
      | some m =>
        have hp := miter_num_pis ntk1 ntk2 m hm
        obtain ⟨b, hb⟩ := run_done pf m (by omega)
        simp only [simulation_cec, gt_iff_lt, if_neg hw, hm, hb]
        exact fun h => exec.noConfusion h

/-- C12: a well-formed network with at most 40 primary inputs is reported as
equivalent to itself, on every platform. -/
theorem reflexive_verdict (pf : platform) (ntk : network) (pst : Option simulation_cec_stats)
    (hwf : ntk.well_formed = true) (h40 : ntk.num_pis ≤ 40) :
    simulation_cec pf ntk ntk pst
      = exec.done (some true, pst.map (fun _ => selector pf ntk.num_pis
          (1 + ntk.num_pis + ntk.gates.length + ntk.gates.length + ntk.pos.length))) := by
  obtain ⟨b, hb, hiff⟩ := simulation_cec_spec pf ntk ntk pst hwf hwf rfl rfl h40
  have hb' : b = true := by
    rw [hiff]
    intro x _ v hv
    exact zipWith_xor_self _ v hv
  rw [hb, hb']

theorem reflexive_verdict_witness :
    maj3_and.well_formed = true ∧ maj3_and.num_pis ≤ 40
      ∧ simulation_cec truncating_platform maj3_and maj3_and (some {})
          = exec.done (some true, some { split_var := 3, rounds := 1 }) :=
  ⟨by decide, by decide,
    reflexive_verdict truncating_platform maj3_and (some {}) (by decide) (by decide)⟩


theorem check_pos_and (ntk : network) (patterns : node_map dynamic_truth_table) (result : Bool) :
    check_pos ntk patterns result = (result && check_pos ntk patterns true) := by
  rw [Bool.eq_iff_iff, Bool.and_eq_true]
  simp only [check_pos, check_pos_foldl_iff, true_and]

theorem simulate_round_false (pf : platform) (ntk : network) (sv r : Nat) :
    simulate_round pf ntk sv r false = false := by
  simp only [simulate_round]
  rw [check_pos_and]
  rfl

theorem round_loop_false (pf : platform) (ntk : network) (sv todo round : Nat) :
    round_loop pf ntk sv todo round false = false := by
  cases todo with
  | zero => rfl
  | succ todo => simp only [round_loop, simulate_round_false, Bool.not_false, if_true]

/-- The loop with the early return computes what the loop over all rounds does. -/
theorem round_loop_complete_eq (pf : platform) (ntk : network) (sv todo round : Nat)
    (result : Bool) :
    round_loop_complete pf ntk sv todo round result = round_loop pf ntk sv todo round result := by
  induction todo generalizing round result with
  | zero => rfl
  | succ todo ih =>
    simp only [round_loop_complete, round_loop, ih]
    cases hb : simulate_round pf ntk sv round result with
    | false => simp only [Bool.not_false, if_true, round_loop_false]
    | true => simp only [Bool.not_true, Bool.false_eq_true, if_false]

theorem round_loop_trace_fst (pf : platform) (ntk : network) (sv todo round : Nat)
    (result : Bool) :
    (round_loop_trace pf ntk sv todo round result).1 = round_loop pf ntk sv todo round result := by
  induction todo generalizing round result with
  | zero => rfl
  | succ todo ih =>
    simp only [round_loop_trace, round_loop]
    cases hb : simulate_round pf ntk sv round result with
    | false => simp only [Bool.not_false, if_true]
    | true => simp only [Bool.not_true, Bool.false_eq_true, if_false, ih]

theorem round_loop_trace_first (pf : platform) (ntk : network) (sv k todo round : Nat)
    (hk : k < todo)
    (hbefore : ∀ j, j < k → simulate_round pf ntk sv (round + j) true = true)
    (hfirst : simulate_round pf ntk sv (round + k) true = false) :
    round_loop_trace pf ntk sv todo round true = (false, List.range' round (k + 1)) := by
  induction k generalizing todo round with
  | zero =>
    cases todo with
    | zero => omega
    | succ todo =>
      rw [Nat.add_zero] at hfirst
      simp only [round_loop_trace, hfirst, Bool.not_false, if_true, Nat.zero_add, List.range'_one]
  | succ k ih =>
    cases todo with
    | zero => omega
    | succ todo =>
      have h0 : simulate_round pf ntk sv round true = true := by
        have := hbefore 0 (by omega)
        rwa [Nat.add_zero] at this
      have hrec := ih todo (round + 1) (by omega)
        (fun j hj => by
          have := hbefore (j + 1) (by omega)
          rwa [show round + (j + 1) = round + 1 + j by omega] at this)
        (by rwa [show round + (k + 1) = round + 1 + k by omega] at hfirst)
      simp only [round_loop_trace, h0, Bool.not_true, Bool.false_eq_true, if_false, hrec]
      rw [List.range'_succ round (k + 1)]

/-- C15: in a multi-round run in which round `r` is the first inconsistent
round, `run` returns `false`; the rounds it has evaluated are exactly
`0, …, r`, none after `r`; and the loop run over all rounds without the early
return gives the same verdict. -/
theorem early_exit (pf : platform) (ntk : network) (r : Nat) (h40 : ntk.num_pis ≤ 40)
    (hmulti : (selector pf ntk.num_pis ntk.size).rounds ≠ 1)
    (hr : r < (selector pf ntk.num_pis ntk.size).rounds)
    (hbefore : ∀ j, j < r →
      simulate_round pf ntk (selector pf ntk.num_pis ntk.size).split_var j true = true)
    (hfirst :
      simulate_round pf ntk (selector pf ntk.num_pis ntk.size).split_var r true = false) :
    run pf ntk = exec.done (false, selector pf ntk.num_pis ntk.size)
      ∧ round_loop_trace pf ntk (selector pf ntk.num_pis ntk.size).split_var
          (selector pf ntk.num_pis ntk.size).rounds 0 true = (false, List.range (r + 1))
      ∧ round_loop_complete pf ntk (selector pf ntk.num_pis ntk.size).split_var
          (selector pf ntk.num_pis ntk.size).rounds 0 true = false := by
  have htrace := round_loop_trace_first pf ntk (selector pf ntk.num_pis ntk.size).split_var r
    (selector pf ntk.num_pis ntk.size).rounds 0 hr
    (fun j hj => by rw [Nat.zero_add]; exact hbefore j hj) (by rw [Nat.zero_add]; exact hfirst)
  have hloop : round_loop pf ntk (selector pf ntk.num_pis ntk.size).split_var
      (selector pf ntk.num_pis ntk.size).rounds 0 true = false := by
    rw [← round_loop_trace_fst, htrace]
  refine ⟨?_, ?_, ?_⟩
  · simp only [run, not_le, if_neg (not_lt.mpr h40), if_neg hmulti, hloop]
  · rw [htrace, List.range_eq_range']
  · rw [round_loop_complete_eq, hloop]



theorem selector_32_33 (pf : platform) :
    selector pf 32 33 = { split_var := 26, rounds := 64 } := by
  have h : Nat.log 2 ((2 ^ 32 - 256 * 33) / 33) = 26 := by
    rw [Nat.log_eq_iff (by norm_num)]
    norm_num
  have ht : selector_tmp pf 33 = 26 := by
    simp only [selector_tmp]
    rw [if_pos (by norm_num)]
    exact h
  simp [selector, ht, shl32]

theorem probe32_output (x : Nat → Bool) : output_value probe32 x ⟨28, false⟩ = x 27 := by
  have h : init_map x 32 28 = some (x 27) := init_map_pi x 32 27 (by norm_num)
  simp only [output_value_eq, simulate_nodes_bool, signal_value, probe32, simulate_gates,
    node_map.get, h, Option.getD_some, Bool.false_eq_true, if_false]

theorem probe32_round (pf : platform) (r : Nat) :
    simulate_round pf probe32 26 r true = true ↔ r / 2 % 2 = 0 := by
  rw [simulate_round_iff pf probe32 (by decide) 26 r true]
  have hpos : probe32.pos = [⟨28, false⟩] := rfl
  have hval : ∀ p, round_assignment pf 26 r p 27 = decide (r / 2 % 2 ≠ 0) := by
    intro p
    simp [round_assignment, shr32]
  simp only [hpos, List.mem_singleton, forall_eq, probe32_output, hval, true_and,
    decide_eq_false_iff_not, not_not]
  constructor
  · intro h
    exact h 0 (by positivity)
  · intro h _ _
    exact h

theorem probe32_selector (pf : platform) :
    selector pf probe32.num_pis probe32.size = { split_var := 26, rounds := 64 } :=
  selector_32_33 pf

theorem early_exit_witness :
    probe32.num_pis ≤ 40
      ∧ (selector masking_platform probe32.num_pis probe32.size).rounds ≠ 1
      ∧ 2 < (selector masking_platform probe32.num_pis probe32.size).rounds
      ∧ (∀ j, j < 2 → simulate_round masking_platform probe32
          (selector masking_platform probe32.num_pis probe32.size).split_var j true = true)
      ∧ simulate_round masking_platform probe32
          (selector masking_platform probe32.num_pis probe32.size).split_var 2 true = false
      ∧ (run masking_platform probe32
            = exec.done (false, selector masking_platform probe32.num_pis probe32.size)
          ∧ round_loop_trace masking_platform probe32
              (selector masking_platform probe32.num_pis probe32.size).split_var
              (selector masking_platform probe32.num_pis probe32.size).rounds 0 true
            = (false, List.range (2 + 1))
          ∧ round_loop_complete masking_platform probe32
              (selector masking_platform probe32.num_pis probe32.size).split_var
              (selector masking_platform probe32.num_pis probe32.size).rounds 0 true = false) :=
  have h1 : (selector masking_platform probe32.num_pis probe32.size).rounds ≠ 1 := by
    rw [probe32_selector]
    decide
  have h2 : 2 < (selector masking_platform probe32.num_pis probe32.size).rounds := by
    rw [probe32_selector]
    decide
  have h3 : ∀ j, j < 2 → simulate_round masking_platform probe32
      (selector masking_platform probe32.num_pis probe32.size).split_var j true = true := by
    intro j hj
    rw [probe32_selector, probe32_round]
    omega
  have h4 : simulate_round masking_platform probe32
      (selector masking_platform probe32.num_pis probe32.size).split_var 2 true = false := by
    rw [probe32_selector]
    cases hb : simulate_round masking_platform probe32 26 2 true with
    | false => rfl
    | true =>
      have := (probe32_round masking_platform 2).1 hb
      omega
  ⟨by decide, h1, h2, h3, h4, early_exit masking_platform probe32 2 (by decide) h1 h2 h3 h4⟩

theorem round_assignment_covers (pf : platform) (n sv : Nat) (h32 : n - sv ≤ 32)
    (x : Nat → Bool) :
    ∃ r, r < 2 ^ (n - sv) ∧ ∃ p, p < 2 ^ sv ∧ ∀ i, i < n → round_assignment pf sv r p i = x i := by
  refine ⟨of_bits (fun k => x (k + sv)) (n - sv), of_bits_lt _ _, of_bits x sv, of_bits_lt _ _, ?_⟩
  intro i hi
  simp only [round_assignment]
  by_cases hsv : sv ≤ i
  · rw [if_pos hsv]
    have hk : i - sv < 32 := by omega
    simp only [shr32, if_pos hk]
    rw [testBit_of_shr, of_bits_testBit]
    have h1 : i - sv < n - sv := by omega
    have h2 : i - sv + sv = i := by omega
    simp [h1, h2]
  · rw [if_neg hsv, of_bits_testBit]
    have h1 : i < sv := by omega
    simp [h1]

/-- Without overflow of the round count: for a well-formed network, every
`split_var ≤ num_inputs` with `num_inputs - split_var < 32` and the round count
`2 ^ (num_inputs - split_var)`, the multi-round loop returns the same boolean as
the single pass over the canonical encoding of all inputs. -/
theorem partition_independent (pf : platform) (ntk : network) (split_var : Nat)
    (hwf : ntk.well_formed = true) (hsv : split_var ≤ ntk.num_pis)
    (h32 : ntk.num_pis - split_var < 32) :
    round_loop pf ntk split_var (2 ^ (ntk.num_pis - split_var)) 0 true
      = check_pos ntk (simulate_nodes (default_simulator ntk.num_pis) ntk node_map.empty)
          true := by
  rw [Bool.eq_iff_iff, round_loop_iff, single_pass_iff ntk hwf]
  simp only [simulate_round_iff pf ntk hwf, true_and, Nat.zero_add]
  constructor
  · intro h f hf p _
    obtain ⟨r, hr, q, hq, hx⟩ := round_assignment_covers pf ntk.num_pis split_var (by omega)
      (fun i => p.testBit i)
    have hq2 : q < 2 ^ ntk.num_pis :=
      lt_of_lt_of_le hq (Nat.pow_le_pow_right (by norm_num) hsv)
    rw [← output_value_congr ntk _ _ hx f]
    exact h r (Nat.zero_le _) hr f hf q hq2
  · intro h r _ _ f hf p _
    have hx : ∀ i, i < ntk.num_pis →
        (fun i => (of_bits (round_assignment pf split_var r p) ntk.num_pis).testBit i) i
          = round_assignment pf split_var r p i := by
      intro i hi
      simp [of_bits_testBit, hi]
    rw [← output_value_congr ntk _ _ hx f]
    exact h f hf _ (of_bits_lt _ _)

theorem partition_independent_witness :
    and2.well_formed = true ∧ 1 ≤ and2.num_pis ∧ and2.num_pis - 1 < 32
      ∧ round_loop masking_platform and2 1 (2 ^ (and2.num_pis - 1)) 0 true
          = check_pos and2 (simulate_nodes (default_simulator and2.num_pis) and2 node_map.empty)
              true :=
  ⟨by decide, by decide, by decide,
    partition_independent masking_platform and2 1 (by decide) (by decide) (by decide)⟩


theorem tt_ones_ne_zeros (n : Nat) : tt_not (tt_const0 n) ≠ tt_const0 n := by
  intro h
  have h2 : (tt_not (tt_const0 n)).table = (tt_const0 n).table := by rw [h]
  simp only [tt_not, tt_const0] at h2
  have : 1 < 2 ^ (2 ^ n) := Nat.one_lt_two_pow (by positivity)
  omega

theorem fixed_pattern (pf : platform) (n sv r i : Nat) (hsv : sv ≤ i) (hi : i < n)
    (h32 : i - sv < 32) :
    update_patterns pf n sv r n node_map.empty (i + 1)
      = some (if r.testBit (i - sv) then tt_not (tt_const0 n) else tt_const0 n) := by
  rw [update_patterns_apply, if_pos (by omega)]
  simp only [fixed_value, Nat.add_sub_cancel, shr32, if_pos h32]
  have hb := testBit_of_shr r (i - sv)
  by_cases hc : r / 2 ^ (i - sv) % 2 ≠ 0
  · rw [if_pos hc]
    have : r.testBit (i - sv) = true := by rw [← hb]; simp [hc]
    rw [this]
    rfl
  · rw [if_neg hc]
    have : r.testBit (i - sv) = false := by rw [← hb]; simp [hc]
    rw [this]
    rfl

theorem pow_lt_two_pow_32 (k : Nat) (h : 2 ^ k < 2 ^ 32) : k < 32 := by
  by_contra hk
  have : 2 ^ 32 ≤ 2 ^ k := Nat.pow_le_pow_right (by norm_num) (by omega)
  omega

/-- Without overflow of the round count: for `split_var ≤ n` and a 32-bit `rounds`
equal to `2 ^ (n - split_var)`, the pattern generator gives the fixed input `i` in round `r` the all-ones table
when bit `i - split_var` of `r` is 1 and the all-zeros table otherwise, and a
round `r < rounds` yields the combination `c` of constants exactly when `r` is
the number with the binary digits `c`: every combination occurs in one round
and one only, in binary counting order. -/
theorem pattern_generator_bijection (pf : platform) (n split_var rounds : Nat)
    (hsv : split_var ≤ n) (hr : rounds = 2 ^ (n - split_var)) (h32 : rounds < 2 ^ 32) :
    (∀ r i, split_var ≤ i → i < n →
        update_patterns pf n split_var r n node_map.empty (i + 1)
          = some (if r.testBit (i - split_var) then tt_not (tt_const0 n) else tt_const0 n))
      ∧ (∀ c : Nat → Bool, of_bits c (n - split_var) < rounds)
      ∧ (∀ (c : Nat → Bool) (r : Nat), r < rounds →
          ((∀ i, split_var ≤ i → i < n →
              update_patterns pf n split_var r n node_map.empty (i + 1)
                = some (if c (i - split_var) then tt_not (tt_const0 n) else tt_const0 n))
            ↔ r = of_bits c (n - split_var))) := by
  have hk : n - split_var < 32 := pow_lt_two_pow_32 _ (by rw [← hr]; exact h32)
  have hfix : ∀ r i, split_var ≤ i → i < n →
      update_patterns pf n split_var r n node_map.empty (i + 1)
        = some (if r.testBit (i - split_var) then tt_not (tt_const0 n) else tt_const0 n) :=
    fun r i h1 h2 => fixed_pattern pf n split_var r i h1 h2 (by omega)
  refine ⟨hfix, ?_, ?_⟩
  · intro c
    rw [hr]
    exact of_bits_lt _ _
  · intro c r hrlt
    constructor
    · intro h
      apply Nat.eq_of_testBit_eq
      intro k
      rw [of_bits_testBit]
      by_cases hkn : k < n - split_var
      · have h1 := h (k + split_var) (by omega) (by omega)
        rw [hfix r (k + split_var) (by omega) (by omega), Nat.add_sub_cancel] at h1
        simp only [Option.some.injEq] at h1
        simp only [hkn, decide_True, Bool.true_and]
        cases hb : r.testBit k <;> cases hc : c k <;> simp only [hb, hc] at h1 ⊢
        · exact absurd h1.symm (tt_ones_ne_zeros n)
        · exact absurd h1 (tt_ones_ne_zeros n)
      · simp only [hkn, decide_False, Bool.false_and]
        apply Nat.testBit_lt_two_pow
        have : 2 ^ (n - split_var) ≤ 2 ^ k := Nat.pow_le_pow_right (by norm_num) (by omega)
        omega
    · intro h i h1 h2
      rw [hfix r i h1 h2, h, of_bits_testBit]
      have : i - split_var < n - split_var := by omega
      simp [this]

theorem pattern_generator_bijection_witness :
    (1 : Nat) ≤ 3 ∧ (4 : Nat) = 2 ^ (3 - 1) ∧ (4 : Nat) < 2 ^ 32
      ∧ ((∀ r i, 1 ≤ i → i < 3 →
            update_patterns masking_platform 3 1 r 3 node_map.empty (i + 1)
              = some (if r.testBit (i - 1) then tt_not (tt_const0 3) else tt_const0 3))
          ∧ (∀ c : Nat → Bool, of_bits c (3 - 1) < 4)
          ∧ (∀ (c : Nat → Bool) (r : Nat), r < 4 →
              ((∀ i, 1 ≤ i → i < 3 →
                  update_patterns masking_platform 3 1 r 3 node_map.empty (i + 1)
                    = some (if c (i - 1) then tt_not (tt_const0 3) else tt_const0 3))
                ↔ r = of_bits c (3 - 1)))) :=
  ⟨by decide, by decide, by decide,
    pattern_generator_bijection masking_platform 3 1 4 (by decide) (by decide) (by decide)⟩


theorem selector_tmp_defined (pf : platform) (V : Nat) (h0 : 0 < V) (hdef : 257 * V ≤ 2 ^ 32) :
    selector_tmp pf V = Nat.log 2 ((2 ^ 32 - 256 * V) / V) := by
  simp only [selector_tmp]
  rw [if_pos ⟨h0, hdef⟩]

theorem selector_split_var_le_tmp (pf : platform) (n V : Nat) (hn : 6 < n) :
    (selector pf n V).split_var ≤ selector_tmp pf V := by
  simp only [selector]
  rw [if_neg (by omega)]
  split
  · assumption
  · exact le_rfl

theorem selector_tmp_1000 (pf : platform) : selector_tmp pf 1000 = 22 := by
  rw [selector_tmp_defined pf 1000 (by norm_num) (by norm_num), Nat.log_eq_iff (by norm_num)]
  norm_num

theorem selector_tmp_16711935 (pf : platform) : selector_tmp pf 16711935 = 0 := by
  rw [selector_tmp_defined pf 16711935 (by norm_num) (by norm_num)]
  norm_num

theorem selector_tmp_16711936 : selector_tmp wrapping_platform 16711936 = 2 ^ 32 - 1 := by
  simp only [selector_tmp]
  rw [if_neg (by norm_num)]
  simp [wrapping_platform]

theorem selector_tmp_5592405 (pf : platform) : selector_tmp pf 5592405 = 9 := by
  rw [selector_tmp_defined pf 5592405 (by norm_num) (by norm_num), Nat.log_eq_iff (by norm_num)]
  norm_num

/-- C11, as the code has it: for more than 6 inputs and a node count `V` with
`0 < V` and `257 * V ≤ 2 ^ 32`, where the floored logarithm is not negative, the
chosen `split_var` keeps `V * 2 ^ split_var` within `2 ^ 32 - 256 * V` bits, that
is `V * (2 ^ split_var / 8 + 32)` bytes within `2 ^ 29` bytes. -/
theorem memory_budget (pf : platform) (n V : Nat) (hn : 6 < n) (h0 : 0 < V)
    (hdef : 257 * V ≤ 2 ^ 32) :
    V * 2 ^ (selector pf n V).split_var ≤ 2 ^ 32 - 256 * V := by
  have hle := selector_split_var_le_tmp pf n V hn
  rw [selector_tmp_defined pf V h0 hdef] at hle
  have hy : (2 ^ 32 - 256 * V) / V ≠ 0 := by
    have : 1 ≤ (2 ^ 32 - 256 * V) / V := by
      rw [Nat.le_div_iff_mul_le h0]
      omega
    omega
  have h1 : 2 ^ (selector pf n V).split_var ≤ 2 ^ Nat.log 2 ((2 ^ 32 - 256 * V) / V) :=
    Nat.pow_le_pow_right (by norm_num) hle
  have h2 : 2 ^ Nat.log 2 ((2 ^ 32 - 256 * V) / V) ≤ (2 ^ 32 - 256 * V) / V :=
    Nat.pow_log_le_self 2 hy
  calc V * 2 ^ (selector pf n V).split_var
      ≤ V * ((2 ^ 32 - 256 * V) / V) := Nat.mul_le_mul_left V (le_trans h1 h2)
    _ ≤ 2 ^ 32 - 256 * V := Nat.mul_div_le _ _

theorem memory_budget_witness :
    6 < 30 ∧ 0 < 1000 ∧ 257 * 1000 ≤ 2 ^ 32
      ∧ 1000 * 2 ^ (selector masking_platform 30 1000).split_var ≤ 2 ^ 32 - 256 * 1000 :=
  ⟨by decide, by decide, by decide,
    memory_budget masking_platform 30 1000 (by decide) (by decide) (by decide)⟩

/-- C11 fails: with 30 inputs and 1000 nodes, where `2^29 / V - 32` is positive,
the selector chooses `split_var = 22` and `1000 * 2 ^ 22` exceeds `2 ^ 29`; and
with 7 inputs and 16711936 nodes, where `2^29 / V - 32` is still positive but
the floored logarithm is `-1`, a wrapping conversion gives `split_var = 7` and
`16711936 * 2 ^ 7` exceeds `2 ^ 29`. -/
theorem memory_budget_exceeded :
    (6 < 30 ∧ 30 ≤ 40 ∧ 32 * 1000 < 2 ^ 29
        ∧ (selector masking_platform 30 1000).split_var = 22
        ∧ 2 ^ 29 < 1000 * 2 ^ (selector masking_platform 30 1000).split_var)
      ∧ (6 < 7 ∧ 7 ≤ 40 ∧ 32 * 16711936 < 2 ^ 29
        ∧ (selector wrapping_platform 7 16711936).split_var = 7
        ∧ 2 ^ 29 < 16711936 * 2 ^ (selector wrapping_platform 7 16711936).split_var) := by
  have h1 : (selector masking_platform 30 1000).split_var = 22 := by
    simp [selector, selector_tmp_1000]
  have h2 : (selector wrapping_platform 7 16711936).split_var = 7 := by
    simp [selector, selector_tmp_16711936]
  refine ⟨⟨by decide, by decide, by norm_num, h1, ?_⟩, ⟨by decide, by decide, by norm_num, h2, ?_⟩⟩
  · rw [h1]
    norm_num
  · rw [h2]
    norm_num

theorem selector_tmp_antitone (pf : platform) (V1 V2 : Nat) (h1 : 0 < V1) (h12 : V1 ≤ V2)
    (h2 : 257 * V2 ≤ 2 ^ 32) : selector_tmp pf V2 ≤ selector_tmp pf V1 := by
  rw [selector_tmp_defined pf V1 h1 (by omega), selector_tmp_defined pf V2 (by omega) h2]
  apply Nat.log_mono_right
  calc (2 ^ 32 - 256 * V2) / V2 ≤ (2 ^ 32 - 256 * V1) / V2 :=
        Nat.div_le_div_right (by omega)
    _ ≤ (2 ^ 32 - 256 * V1) / V1 := Nat.div_le_div_left h12 h1

/-- Where every operation of the selector is defined: for node counts `V1 ≤ V2`
with `0 < V1` and `257 * V2 ≤ 2 ^ 32`, where the floored logarithm is not negative, the larger
miter gets no larger `split_var`; and when the round count of the larger miter
does not overflow, `n - split_var < 32`, it gets no fewer rounds. -/
theorem selector_monotone (pf : platform) (n V1 V2 : Nat) (h1 : 0 < V1) (h12 : V1 ≤ V2)
    (h2 : 257 * V2 ≤ 2 ^ 32) :
    (selector pf n V2).split_var ≤ (selector pf n V1).split_var
      ∧ (n - (selector pf n V2).split_var < 32 →
          (selector pf n V1).rounds ≤ (selector pf n V2).rounds) := by
  have ht := selector_tmp_antitone pf V1 V2 h1 h12 h2
  have hsv : (selector pf n V2).split_var ≤ (selector pf n V1).split_var := by
    simp only [selector]
    by_cases hn : n ≤ 6
    · rw [if_pos hn, if_pos hn]
    · rw [if_neg hn, if_neg hn]
      split <;> split <;> omega
  refine ⟨hsv, ?_⟩
  intro hshift
  have hle1 := selector_split_var_le pf n V1
  rw [selector_rounds pf n V1, selector_rounds pf n V2, shl32_of_lt pf hshift,
    shl32_of_lt pf (by omega)]
  exact Nat.pow_le_pow_right (by norm_num) (by omega)

theorem selector_tmp_2000 (pf : platform) : selector_tmp pf 2000 = 21 := by
  rw [selector_tmp_defined pf 2000 (by norm_num) (by norm_num), Nat.log_eq_iff (by norm_num)]
  norm_num

theorem selector_monotone_witness :
    0 < 1000 ∧ 1000 ≤ 2000 ∧ 257 * 2000 ≤ 2 ^ 32
      ∧ 40 - (selector masking_platform 40 2000).split_var < 32
      ∧ ((selector masking_platform 40 2000).split_var
            ≤ (selector masking_platform 40 1000).split_var
          ∧ (40 - (selector masking_platform 40 2000).split_var < 32 →
              (selector masking_platform 40 1000).rounds
                ≤ (selector masking_platform 40 2000).rounds)) :=
  have hsv : (selector masking_platform 40 2000).split_var = 21 := by
    simp [selector, selector_tmp_2000]
  ⟨by decide, by decide, by decide, by rw [hsv]; decide,
    selector_monotone masking_platform 40 1000 2000 (by decide) (by decide) (by decide)⟩

/-- C19 at its failing inputs. With 40 inputs the chain of 5592363 AND gates
against the constant-false network gives a miter of 5592405 nodes, `split_var = 9`
and `2 ^ 31` rounds; the chain of 8388566 gates gives the larger miter of 8388608
nodes, `split_var = 8` and, the shift `1u << 32` overflowing, 1 round where shift
counts are masked and none where the bit is shifted out: fewer rounds for the
larger miter. With 7 inputs and a conversion that wraps, the miter of 16711935
nodes gets `split_var = 0` and the larger one of 16711936 nodes `split_var = 7`.
All four node counts satisfy `2^29 / V - 32 > 0`. -/
theorem selector_not_monotone :
    (∃ v1 v2,
        simulation_cec masking_platform (chain_network 5592363) zero_network (some {})
            = exec.done (some v1, some { split_var := 9, rounds := 2 ^ 31 })
          ∧ simulation_cec masking_platform (chain_network 8388566) zero_network (some {})
            = exec.done (some v2, some { split_var := 8, rounds := 1 }))
      ∧ ((5592405 : Nat) ≤ 8388608 ∧ 32 * 8388608 < 2 ^ 29
        ∧ (selector masking_platform 40 5592405).rounds = 2 ^ 31
        ∧ (selector masking_platform 40 8388608).rounds = 1
        ∧ (selector truncating_platform 40 5592405).rounds = 2 ^ 31
        ∧ (selector truncating_platform 40 8388608).rounds = 0)
      ∧ ((16711935 : Nat) ≤ 16711936 ∧ 32 * 16711936 < 2 ^ 29
        ∧ (selector wrapping_platform 7 16711935).split_var = 0
        ∧ (selector wrapping_platform 7 16711936).split_var = 7) := by
  have hsv9 : ∀ q : platform, (selector q 40 5592405).split_var = 9 := by
    intro q
    simp [selector, selector_tmp_5592405]
  have hr9 : ∀ q : platform, (selector q 40 5592405).rounds = 2 ^ 31 := by
    intro q
    rw [selector_rounds, hsv9 q, shl32_of_lt q (by norm_num)]
  have hsv8 : ∀ q : platform, (selector q 40 8388608).split_var = 8 := selector_40_8388608
  have hr8 : (selector masking_platform 40 8388608).rounds = 1 := by
    rw [selector_rounds, hsv8]
    simp [shl32, masking_platform]
  refine ⟨?_, ⟨by decide, by norm_num, hr9 _, hr8, hr9 _, ?_⟩,
    ⟨by decide, by norm_num, ?_, ?_⟩⟩
  · obtain ⟨b1, hb1, _⟩ := chain_cec masking_platform 5592362 (some {})
    obtain ⟨b2, hb2, _⟩ := chain_cec masking_platform 8388565 (some {})
    refine ⟨b1, b2, ?_, ?_⟩
    · rw [hb1]
      have e : selector masking_platform 40 (5592362 + 43)
          = { split_var := (selector masking_platform 40 5592405).split_var,
              rounds := (selector masking_platform 40 5592405).rounds } := rfl
      rw [Option.map_some', e, hsv9, hr9]
    · rw [hb2]
      have e : selector masking_platform 40 (8388565 + 43)
          = { split_var := (selector masking_platform 40 8388608).split_var,
              rounds := (selector masking_platform 40 8388608).rounds } := rfl
      rw [Option.map_some', e, hsv8, hr8]
  · rw [selector_rounds, hsv8]
    simp [shl32, truncating_platform]
  · simp [selector, selector_tmp_16711935]
  · simp [selector, selector_tmp_16711936]

theorem round_pi_value (pf : platform) (ntk : network) (sv r i : Nat) (hi : i < ntk.num_pis) :
    simulate_nodes (default_simulator ntk.num_pis) ntk
        (update_patterns pf ntk.num_pis sv r ntk.num_pis node_map.empty) (i + 1)
      = some (if sv ≤ i then fixed_value pf ntk.num_pis sv r i
          else tt_nth_var ntk.num_pis i) := by
  simp only [simulate_nodes]
  rw [simulate_gates_frame _ _ _ _ _ (by omega), simulate_pis_apply, if_pos (by omega)]
  have hne : i + 1 ≠ 0 := by omega
  have hm : (if (update_patterns pf ntk.num_pis sv r ntk.num_pis node_map.empty).has 0 = true
        then update_patterns pf ntk.num_pis sv r ntk.num_pis node_map.empty
        else (update_patterns pf ntk.num_pis sv r ntk.num_pis node_map.empty).set 0
          ((default_simulator ntk.num_pis).compute_constant false)) (i + 1)
      = update_patterns pf ntk.num_pis sv r ntk.num_pis node_map.empty (i + 1) := by
    split
    · rfl
    · simp only [node_map.set, if_neg hne]
  rw [hm, update_patterns_apply, Nat.add_sub_cancel]
  by_cases hsv : sv ≤ i
  · rw [if_pos (by omega), if_pos hsv]
    rfl
  · rw [if_neg (by omega), if_neg hsv]
    rfl

theorem words_length (t : dynamic_truth_table) : t.words.length = num_words t.num_vars := by
  simp only [dynamic_truth_table.words, List.length_map, List.length_range]

/-- In every round every primary input, fixed or free, carries a table over all
`num_pis` variables. -/
theorem round_pi_width (pf : platform) (ntk : network) (sv r i : Nat) (hi : i < ntk.num_pis) :
    ∃ t, simulate_nodes (default_simulator ntk.num_pis) ntk
          (update_patterns pf ntk.num_pis sv r ntk.num_pis node_map.empty) (i + 1) = some t
      ∧ t = (if sv ≤ i then fixed_value pf ntk.num_pis sv r i else tt_nth_var ntk.num_pis i)
      ∧ t.num_vars = ntk.num_pis ∧ t.words.length = num_words ntk.num_pis := by
  refine ⟨_, round_pi_value pf ntk sv r i hi, rfl, ?_⟩
  have hv : (if sv ≤ i then fixed_value pf ntk.num_pis sv r i
      else tt_nth_var ntk.num_pis i).num_vars = ntk.num_pis := by
    split
    · exact (fixed_value_valid pf ntk.num_pis sv r i).1
    · exact (tt_nth_var_valid ntk.num_pis i).1
  exact ⟨hv, by rw [words_length, hv]⟩

theorem selector_32_34 (pf : platform) :
    selector pf 32 34 = { split_var := 26, rounds := 64 } := by
  have h : Nat.log 2 ((2 ^ 32 - 256 * 34) / 34) = 26 := by
    rw [Nat.log_eq_iff (by norm_num)]
    norm_num
  have ht : selector_tmp pf 34 = 26 := by
    rw [selector_tmp_defined pf 34 (by norm_num) (by norm_num)]
    exact h
  simp [selector, ht, shl32]

/-- C13 at its failing input, the 32-input buffer checked against itself: the
miter has 34 nodes, the selector chooses `split_var = 26` and 64 rounds, the
multi-round branch is taken, and in every round each primary input, the fixed
ones (`i ≥ 26`, constant tables) and the free ones (`i < 26`, canonical
encoding), carries a table over 32 variables, `2 ^ 26` words or `2 ^ 32` bits
wide, not one over 26 variables. -/
theorem wide_round_tables (pf : platform) (round : Nat) :
    miter buffer32 buffer32 = some (miter_network buffer32 buffer32)
      ∧ selector pf (miter_network buffer32 buffer32).num_pis
          (miter_network buffer32 buffer32).size = { split_var := 26, rounds := 64 }
      ∧ run pf (miter_network buffer32 buffer32)
          = exec.done (round_loop pf (miter_network buffer32 buffer32) 26 64 0 true,
              { split_var := 26, rounds := 64 })
      ∧ (∀ i, i < 32 →
          ∃ t, simulate_nodes (default_simulator 32) (miter_network buffer32 buffer32)
                (update_patterns pf 32 26 round 32 node_map.empty) (i + 1) = some t
            ∧ t = (if 26 ≤ i then fixed_value pf 32 26 round i else tt_nth_var 32 i)
            ∧ t.num_vars = 32 ∧ t.words.length = 2 ^ 26 ∧ t.num_vars ≠ 26) := by
  have hsel : selector pf (miter_network buffer32 buffer32).num_pis
      (miter_network buffer32 buffer32).size = { split_var := 26, rounds := 64 } :=
    selector_32_34 pf
  have hp : (miter_network buffer32 buffer32).num_pis = 32 := rfl
  refine ⟨by decide, hsel, ?_, ?_⟩
  · have h40 : (miter_network buffer32 buffer32).num_pis ≤ 40 := by decide
    simp only [run, not_le, if_neg (not_lt.mpr h40), hsel]
    rfl
  · intro i hi
    obtain ⟨t, h1, h2, h3, h4⟩ := round_pi_width pf (miter_network buffer32 buffer32) 26 round i
      (by rw [hp]; exact hi)
    rw [hp] at h1 h2 h3 h4
    refine ⟨t, h1, h2, h3, ?_, by rw [h3]; decide⟩
    rw [h4]
    norm_num [num_words]

/-! ## The partition of a deep miter -/

theorem chain_miter_well_formed (len : Nat) :
    (miter_network (chain_network (len + 1)) zero_network).well_formed = true :=
  miter_network_well_formed (chain_network (len + 1)) zero_network (chain_well_formed _)
    zero_well_formed rfl rfl

theorem chain_miter_size (len : Nat) :
    (miter_network (chain_network (len + 1)) zero_network).size = len + 43 := by
  rw [miter_network_size (chain_network (len + 1)) zero_network rfl]
  simp only [chain_network, zero_network, List.length_map, List.length_range, List.length_nil,
    List.length_cons]
  omega

theorem chain_miter_outputs (x : Nat → Bool) (len : Nat) :
    outputs (miter_network (chain_network (len + 1)) zero_network) x = [x 8 && x 0] := by
  rw [miter_outputs (chain_network (len + 1)) zero_network (chain_well_formed _)
    zero_well_formed rfl x, chain_outputs,
    zero_outputs]
  simp

theorem chain_miter_round (pf : platform) (len sv r : Nat) :
    simulate_round pf (miter_network (chain_network (len + 1)) zero_network) sv r true = true
      ↔ ∀ p, p < 2 ^ 40 →
          (round_assignment pf sv r p 8 && round_assignment pf sv r p 0) = false := by
  rw [simulate_round_iff pf _ (chain_miter_well_formed len) sv r true]
  have hp : (miter_network (chain_network (len + 1)) zero_network).num_pis = 40 := rfl
  simp only [true_and, hp]
  constructor
  · intro h p hp
    have hall : ∀ f ∈ (miter_network (chain_network (len + 1)) zero_network).pos,
        output_value (miter_network (chain_network (len + 1)) zero_network)
          (round_assignment pf sv r p) f = false := fun f hf => h f hf p hp
    rw [forall_outputs_iff, chain_miter_outputs] at hall
    exact hall _ (List.mem_singleton.2 rfl)
  · intro h f hf p hp
    have hall : ∀ v ∈ outputs (miter_network (chain_network (len + 1)) zero_network)
        (round_assignment pf sv r p), v = false := by
      rw [chain_miter_outputs]
      intro v hv
      rw [List.mem_singleton.1 hv]
      exact h p hp
    exact (forall_outputs_iff _ _).2 hall f hf

theorem chain_miter_single_pass (len : Nat) :
    check_pos (miter_network (chain_network (len + 1)) zero_network)
        (simulate_nodes (default_simulator 40) (miter_network (chain_network (len + 1)) zero_network)
          node_map.empty) true = false := by
  cases hc : check_pos (miter_network (chain_network (len + 1)) zero_network)
      (simulate_nodes (default_simulator 40) (miter_network (chain_network (len + 1)) zero_network)
        node_map.empty) true with
  | false => rfl
  | true =>
    exfalso
    have h := (single_pass_iff _ (chain_miter_well_formed len)).1 hc
    have hall : ∀ f ∈ (miter_network (chain_network (len + 1)) zero_network).pos,
        output_value (miter_network (chain_network (len + 1)) zero_network)
          (fun i => Nat.testBit 257 i) f = false :=
      fun f hf => h f hf 257 (by
        have hp : (miter_network (chain_network (len + 1)) zero_network).num_pis = 40 := rfl
        rw [hp]
        norm_num)
    rw [forall_outputs_iff, chain_miter_outputs] at hall
    have := hall _ (List.mem_singleton.2 rfl)
    have h8 : Nat.testBit 257 8 = true := by decide
    have h0 : Nat.testBit 257 0 = true := by decide
    rw [h8, h0] at this
    exact Bool.noConfusion this

theorem fixed_pattern_wide :
    update_patterns masking_platform 40 7 1 40 node_map.empty (39 + 1)
      = some (tt_not (tt_const0 40)) := by
  rw [update_patterns_apply, if_pos (by decide)]
  have hc : shr32 masking_platform 1 (39 + 1 - 1 - 7) % 2 ≠ 0 := by decide
  simp only [fixed_value]
  rw [if_pos hc]

/-- C14 at its failing input: the partition `run` picks for the chain of 8388608
AND gates against the constant-false network (a miter of 40 inputs and 8388650
nodes, `split_var = 7`), on a platform that masks shift counts. In round 1 the
fixed input `x39` is given the all-ones table although bit `39 - 7 = 32` of 1 is
0, the shift `1 >> 32` being taken as `1 >> 0`; and the round count stored is 2,
on every platform below the `2 ^ 33` combinations of the 33 fixed inputs, so the
rounds cannot reach every combination. -/
theorem fixed_patterns_overflow :
    (∃ verdict, simulation_cec masking_platform (chain_network 8388608) zero_network (some {})
        = exec.done (some verdict, some { split_var := 7, rounds := 2 }))
      ∧ update_patterns masking_platform 40 7 1 40 node_map.empty (39 + 1)
          = some (tt_not (tt_const0 40))
      ∧ Nat.testBit 1 (39 - 7) = false
      ∧ tt_not (tt_const0 40) ≠ tt_const0 40
      ∧ ∀ pf : platform, (selector pf 40 8388650).split_var = 7
          ∧ (selector pf 40 8388650).rounds < 2 ^ (40 - 7) := by
  have hsel : selector masking_platform 40 8388650 = { split_var := 7, rounds := 2 } := by
    rw [selector_40_8388650]
    simp [masking_platform]
  refine ⟨?_, fixed_pattern_wide, by decide, tt_ones_ne_zeros 40, ?_⟩
  · obtain ⟨b, hb, _⟩ := chain_cec masking_platform 8388607 (some {})
    refine ⟨b, ?_⟩
    rw [hb]
    have e : selector masking_platform 40 (8388607 + 43) = selector masking_platform 40 8388650 :=
      rfl
    rw [Option.map_some', e, hsel]
  · intro pf
    have h := selector_40_8388650 pf
    refine ⟨by rw [h], ?_⟩
    rw [selector_rounds]
    have := shl32_lt pf 1 (40 - (selector pf 40 8388650).split_var)
    have h33 : (2 : Nat) ^ 32 < 2 ^ (40 - 7) := by norm_num
    omega

/-- C17 at its failing input: the miter of the chain of 8388608 AND gates and
the constant-false network (40 inputs, 8388650 nodes), whose output is
`x8 AND x0`. The selector picks `split_var = 7 ≤ 40` and stores the round count
`1u << 33`: 2 where shift counts are masked, 0 where the bit is shifted out. The
multi-round branch `run` takes returns `true` in both cases, the single-pass
branch over all 40 inputs returns `false`. -/
theorem partition_changes_verdict :
    selector masking_platform 40
        (miter_network (chain_network 8388608) zero_network).size
          = { split_var := 7, rounds := 2 }
      ∧ run masking_platform (miter_network (chain_network 8388608) zero_network)
          = exec.done
              (round_loop masking_platform (miter_network (chain_network 8388608) zero_network)
                7 2 0 true, { split_var := 7, rounds := 2 })
      ∧ round_loop masking_platform (miter_network (chain_network 8388608) zero_network)
          7 2 0 true = true
      ∧ run truncating_platform (miter_network (chain_network 8388608) zero_network)
          = exec.done (true, { split_var := 7, rounds := 0 })
      ∧ check_pos (miter_network (chain_network 8388608) zero_network)
          (simulate_nodes (default_simulator 40)
            (miter_network (chain_network 8388608) zero_network) node_map.empty) true
          = false := by
  have hsize : (miter_network (chain_network 8388608) zero_network).size = 8388650 :=
    chain_miter_size 8388607
  have hp : (miter_network (chain_network 8388608) zero_network).num_pis = 40 := rfl
  have h40 : (miter_network (chain_network 8388608) zero_network).num_pis ≤ 40 := by
    rw [hp]
  have hselm : selector masking_platform 40 8388650 = { split_var := 7, rounds := 2 } := by
    rw [selector_40_8388650]
    simp [masking_platform]
  have hselt : selector truncating_platform 40 8388650 = { split_var := 7, rounds := 0 } := by
    rw [selector_40_8388650]
    simp [truncating_platform]
  refine ⟨by rw [hsize, hselm], ?_, ?_, ?_, chain_miter_single_pass 8388607⟩
  · simp only [run, not_le, if_neg (not_lt.mpr h40), hp, hsize, hselm]
    rfl
  · rw [round_loop_iff]
    intro r _ hr
    rw [chain_miter_round masking_platform 8388607 7 r]
    intro p _
    have hdiv : r / 2 % 2 = 0 := by omega
    have h8 : round_assignment masking_platform 7 r p 8 = false := by
      simp [round_assignment, shr32, hdiv]
    rw [h8]
    rfl
  · simp only [run, not_le, if_neg (not_lt.mpr h40), hp, hsize, hselt]
    rfl

end mockturtle
